import Mathlib

/-!
# polynomial.c: base-N root decoding and monic polynomial synthesis

A shallow embedding of `src/polynomial.c`.

* `int64_t` values are integers (`Int`); an arithmetic result is stored through
  `wrap64`, the two's-complement reduction into `[-2^63, 2^63 - 1]`. Signed
  overflow, undefined in C, is thereby modelled as wrap-around.
* Allocation failures (`malloc`, `calloc` returning NULL) are not modelled.
* A C string is the list of its characters before the terminating NUL.
* `parse_in_base` returns `none` exactly when the C function sets `*ok = 0`.
* `main` is modelled from the point where `n` and `k` have been extracted; the
  outcome of `extract_block` for index `i` is given by a lookup function.
-/

namespace Polynomial64

/-! ## Machine integers -/

/-- Largest `int64_t` value. -/
def INT64_MAX : Int := 9223372036854775807

/-- Smallest `int64_t` value. -/
def INT64_MIN : Int := -9223372036854775808

/-- Two's-complement reduction of an integer into the `int64_t` range. -/
def wrap64 (x : Int) : Int := (x + 9223372036854775808) % 18446744073709551616 - 9223372036854775808

/-- Conversion of an `int64_t` value to `uint64_t`. -/
def toU64 (x : Int) : Int := x % 18446744073709551616

/-- Membership in the `int64_t` range, as a boolean test. -/
def inI64 (x : Int) : Bool := decide (INT64_MIN ≤ x) && decide (x ≤ INT64_MAX)

/-! ## Polynomial building (`main`, lines 212-237) -/

/-- One pass of the inner loop body for index `j`:
`q[j + 1] += coef[j]; q[j] -= ri * coef[j];`. -/
def innerStep (ri : Int) (coef q : List Int) (j : Nat) : List Int :=
  let q1 := q.set (j + 1) (wrap64 (q.getD (j + 1) 0 + coef.getD j 0))
  q1.set j (wrap64 (q1.getD j 0 - wrap64 (ri * coef.getD j 0)))

/-- The body of the outer loop for one root `ri`: `q` is a fresh zeroed array of
`deg + 2` entries, filled by `for (j = 0; j <= deg; j++)`, and replaces `coef`.
The list `coef` holds the live entries `coef[0..deg]`. The preceding loop
`q[j] += 0` changes nothing and is left out. -/
def mulByRoot (ri : Int) (coef : List Int) : List Int :=
  (List.range coef.length).foldl (innerStep ri coef) (List.replicate (coef.length + 1) 0)

/-- The synthesis loop: `coef = [1]`, then every root is folded in input order. -/
def synthesize (rs : List Int) : List Int :=
  rs.foldl (fun coef ri => mulByRoot ri coef) [1]

/-- The three arithmetic operations of one inner-loop pass, evaluated exactly on
the operands the machine holds, all stay inside the `int64_t` range. -/
def stepSafe (ri : Int) (coef q : List Int) (j : Nat) : Bool :=
  let a := q.getD (j + 1) 0 + coef.getD j 0
  let p := ri * coef.getD j 0
  let q1 := q.set (j + 1) (wrap64 a)
  inI64 a && inI64 p && inI64 (q1.getD j 0 - wrap64 p)

/-- No operation of the inner loop over the indices `js`, started on `q`, leaves
the `int64_t` range. -/
def innerSafe (ri : Int) (coef : List Int) : List Nat → List Int → Bool
  | [], _ => true
  | j :: js, q => stepSafe ri coef q j && innerSafe ri coef js (innerStep ri coef q j)

/-- No operation performed while folding the roots `rs` into `coef` leaves the
`int64_t` range. -/
def foldSafe : List Int → List Int → Bool
  | [], _ => true
  | ri :: rs, coef =>
    innerSafe ri coef (List.range coef.length) (List.replicate (coef.length + 1) 0)
      && foldSafe rs (mulByRoot ri coef)

/-- No multiplication or accumulation of the whole synthesis loop overflows. -/
def synthSafe (rs : List Int) : Bool := foldSafe rs [1]

/-! ## Literal decoding (`parse_in_base`, lines 19-48) -/

/-- The C library predicate `isspace` in the "C" locale. -/
def isspace (c : Char) : Bool :=
  c == ' ' || c == '\t' || c == '\n' || c == '\x0b' || c == '\x0c' || c == '\r'

/-- Digit value of a character (lines 32-36); `none` is the `else` branch that
rejects the character. -/
def digitValue (c : Char) : Option Int :=
  if '0'.toNat ≤ c.toNat ∧ c.toNat ≤ '9'.toNat then some ((c.toNat : Int) - ('0'.toNat : Int))
  else if 'a'.toNat ≤ c.toNat ∧ c.toNat ≤ 'f'.toNat then
    some (10 + ((c.toNat : Int) - ('a'.toNat : Int)))
  else if 'A'.toNat ≤ c.toNat ∧ c.toNat ≤ 'F'.toNat then
    some (10 + ((c.toNat : Int) - ('A'.toNat : Int)))
  else none

/-- The digit loop `while ( *p )` of lines 29-42, started with accumulator `acc`
on the remaining characters; `none` is an early `*ok = 0; return 0;`. -/
def parseLoop (base : Int) : Int → List Char → Option Int
  | acc, [] => some acc
  | acc, c :: p =>
    if c == '_' || isspace c then parseLoop base acc p
    else
      match digitValue c with
      | none => none
      | some v =>
        if v ≥ base then none
        else if acc > (INT64_MAX - v).tdiv base then none
        else parseLoop base (wrap64 (acc * base + v)) p

/-- The optional sign of lines 25-26: the `neg` flag and the remaining text. -/
def takeSign : List Char → Bool × List Char
  | '+' :: p => (false, p)
  | '-' :: p => (true, p)
  | p => (false, p)

/-- The function `parse_in_base`: `some x` when it returns `x` with `*ok = 1`,
`none` when it sets `*ok = 0`. -/
def parse_in_base (s : List Char) (base : Int) : Option Int :=
  let p := s.dropWhile isspace
  let neg := (takeSign p).1
  let p := (takeSign p).2
  match p with
  | [] => none
  | _ :: _ =>
    match parseLoop base 0 p with
    | none => none
    | some acc =>
      if neg then
        if toU64 acc > toU64 INT64_MAX + 1 then none else some (wrap64 (-acc))
      else some acc

/-! ## Root selection and the run (`main`, lines 161-261) -/

/-- The ways a run ends with exit status 1 after `n` and `k` were read. -/
inductive RunError where
  | invalidNK : RunError
  | parseFailed (idx : Nat) : RunError
  | notEnough (found : Nat) (k : Int) : RunError
  deriving DecidableEq, Repr

/-- The report printed by a successful run. -/
structure Report where
  k : Int
  roots : List Int
  degree : Nat
  coefficients : List Int
  deriving DecidableEq, Repr

/-- The outcome of `extract_block` for each index: `none` when it returns 0,
otherwise the base and the value string. -/
abbrev Lookup := Nat → Option (Int × List Char)

/-- The loop of lines 177-198 with loop variable `i` and `m` iterations left;
`roots` holds the `found` values decoded so far. -/
def scanRoots (lookup : Lookup) : Nat → Nat → List Int → Except RunError (List Int)
  | _, 0, roots => .ok roots
  | i, m + 1, roots =>
    match lookup (i + 1) with
    | none => scanRoots lookup (i + 1) m roots
    | some (base, val) =>
      match parse_in_base val base with
      | none => .error (.parseFailed (i + 1))
      | some x => scanRoots lookup (i + 1) m (roots ++ [x])

/-- Lines 176-210: decode the located records, check `found < k`, and copy the
first `k` decoded values into `r`. -/
def selectRoots (n k : Int) (lookup : Lookup) : Except RunError (List Int) :=
  match scanRoots lookup 0 n.toNat [] with
  | .error e => .error e
  | .ok roots =>
    if (roots.length : Int) < k then .error (.notEnough roots.length k)
    else .ok (roots.take k.toNat)

/-- The run of `main` once `n` and `k` are known: the `k <= 0 || n <= 0` test,
the selection, the synthesis loop and the report with the coefficients listed
from `coef[deg]` down to `coef[0]`. -/
def run (n k : Int) (lookup : Lookup) : Except RunError Report :=
  if k ≤ 0 ∨ n ≤ 0 then .error .invalidNK
  else
    match selectRoots n k lookup with
    | .error e => .error e
    | .ok r =>
      let coef := synthesize r
      let deg := r.length
      .ok { k := k, roots := r, degree := deg,
            coefficients := (List.range (deg + 1)).reverse.map (fun j => coef.getD j 0) }

/-! ## Text scanning (`extract_int_key`, `extract_block`, lines 71-151)

A pointer into the input text is the suffix of the text that starts at it, so a
pointer further to the right is a shorter suffix. `long` is taken to be 64 bits
wide and `int` 32 bits wide. -/

/-- Conversion of an integer to `int` (32 bits, two's complement). -/
def wrap32 (x : Int) : Int := (x + 2147483648) % 4294967296 - 2147483648

/-- The C library predicate `isdigit`. -/
def isdigit (c : Char) : Bool := decide ('0'.toNat ≤ c.toNat) && decide (c.toNat ≤ '9'.toNat)

/-- The C library function `strstr`: the suffix of `hay` that starts at the first
occurrence of `pat`. -/
def strstr (hay pat : List Char) : Option (List Char) :=
  match hay with
  | [] => if pat.isPrefixOf [] then some [] else none
  | c :: t => if pat.isPrefixOf (c :: t) then some (c :: t) else strstr t pat

/-- The C library function `strchr` for a character other than NUL: the suffix
that starts at the first occurrence of `c`. -/
def strchr (p : List Char) (c : Char) : Option (List Char) :=
  match p with
  | [] => none
  | d :: t => if d = c then some (d :: t) else strchr t c

/-- The digit loop `v = v * 10 + ( *p - '0')` over the leading digits, in `long`. -/
def readDigits (p : List Char) : Int :=
  (p.takeWhile isdigit).foldl (fun v c => wrap64 (v * 10 + ((c.toNat : Int) - ('0'.toNat : Int)))) 0

/-- The function `extract_int_key`: finds `"key": <number>`; `none` is the
return value 0. -/
def extract_int_key (json key : List Char) : Option Int :=
  let pat := (['"'] ++ key ++ ['"']).take 127
  match strstr json pat with
  | none => none
  | some p =>
    match strchr p ':' with
    | none => none
    | some p =>
      let p := (p.drop 1).dropWhile isspace
      let sign : Int := if p.head? = some '-' then -1 else 1
      let p := if p.head? = some '-' then p.drop 1 else p
      match p with
      | [] => none
      | c :: _ =>
        if isdigit c then some (wrap32 (wrap64 (readDigits p * sign))) else none

/-- The C library function `strtol` in base 10: `none` when no digits were
converted (`endp == tmp`), otherwise the value clamped to the range of `long`. -/
def strtol10 (s : List Char) : Option Int :=
  let p := s.dropWhile isspace
  let neg := (takeSign p).1
  let ds := ((takeSign p).2).takeWhile isdigit
  match ds with
  | [] => none
  | _ :: _ =>
    let m := ds.foldl (fun a c => a * 10 + ((c.toNat : Int) - ('0'.toNat : Int))) 0
    let x := if neg then -m else m
    some (max INT64_MIN (min INT64_MAX x))

/-- The base field of a block (lines 106-131); `p` points at the opening brace
and `q` at the closing brace. -/
def extractBase (p q : List Char) : Option Int :=
  match strstr p "\"base\"".toList with
  | none => none
  | some b =>
    if b.length < q.length then none
    else
      match strchr b ':' with
      | none => none
      | some b =>
        let b := (b.drop 1).dropWhile isspace
        match b with
        | [] => none
        | c :: rest =>
          if c = '"' then
            let tmp := (rest.takeWhile (fun d => d != '"')).take 31
            if (rest.drop tmp.length).head? = some '"' then
              match strtol10 tmp with
              | none => none
              | some bv => some (wrap32 bv)
            else none
          else if isdigit c then some (wrap32 (readDigits (c :: rest)))
          else none

/-- The value field of a block (lines 134-147), copied into a buffer of
`value_cap` bytes. -/
def extractValue (p q : List Char) (value_cap : Nat) : Option (List Char) :=
  match strstr p "\"value\"".toList with
  | none => none
  | some v =>
    if v.length < q.length then none
    else
      match strchr v ':' with
      | none => none
      | some v =>
        let v := (v.drop 1).dropWhile isspace
        match v with
        | [] => none
        | c :: rest =>
          if c = '"' then
            let out := (rest.takeWhile (fun d => d != '"')).take (value_cap - 1)
            if (rest.drop out.length).head? = some '"' then some out else none
          else none

/-- The function `extract_block`: `none` is the return value 0, otherwise the
base and the value string written to the output parameters. -/
def extract_block (json idx_str : List Char) (value_cap : Nat) : Option (Int × List Char) :=
  let pat := (['"'] ++ idx_str ++ ['"']).take 63
  match strstr json pat with
  | none => none
  | some p =>
    match strchr p '{' with
    | none => none
    | some p =>
      match strchr p '}' with
      | none => none
      | some q =>
        match extractBase p q with
        | none => none
        | some base =>
          match extractValue p q value_cap with
          | none => none
          | some value => some (base, value)

/-- The record lookup of `main`: index `i` is printed with `%d` and searched with
`extract_block` and a value buffer of 2048 bytes. -/
def lookupOf (json : List Char) : Lookup :=
  fun i => extract_block json (Nat.toDigits 10 i) 2048

/-- A decimal integer followed by a newline, as printed by `%d` and `%lld`; a
line is kept without its newline. -/
def decimalLine (x : Int) : String := toString x

/-- The program `main` on the input text: the exit status and the lines written
to standard output. The buffer `out` is what has been printed when the program
returns. -/
def mainProgram (json : List Char) : Int × List String :=
  let out : List String := []
  match extract_int_key json "n".toList, extract_int_key json "k".toList with
  | some n, some k =>
    if k ≤ 0 ∨ n ≤ 0 then (1, out)
    else
      match scanRoots (lookupOf json) 0 n.toNat [] with
      | .error _ => (1, out)
      | .ok roots =>
        if (roots.length : Int) < k then (1, out)
        else
          let r := roots.take k.toNat
          let coef := synthesize r
          let deg := r.length
          let out := out ++ ["k", decimalLine k, "roots_decimal_first_k"]
          let out := out ++ r.map decimalLine
          let out := out ++ ["degree", decimalLine deg, "coefficients_high_to_low"]
          let out := out ++ (List.range (deg + 1)).reverse.map (fun j => decimalLine (coef.getD j 0))
          (0, out)
  | _, _ => (1, out)

/-! ## Specification-side notions -/

/-- Entry `i - 1` of a coefficient vector, read as 0 at `i = 0`. -/
def prevCoef (coef : List Int) (i : Nat) : Int := if i = 0 then 0 else coef.getD (i - 1) 0

/-- A coefficient list represents a polynomial when its entries, read as 0 past
the end, are the coefficients in ascending powers. -/
def Represents (coef : List Int) (P : Polynomial ℤ) : Prop := ∀ j, coef.getD j 0 = P.coeff j

/-- Digit value of a character, 0 for a character that is not a digit. -/
def digitOf (c : Char) : Int := (digitValue c).getD 0

/-- Positional value of a digit run written most significant digit first:
the sum of `digit_i * b^i`, where `digit_i` is the digit `i` places from the right. -/
def positional (b : Int) (ds : List Char) : Int :=
  ((List.range ds.length).map (fun i => digitOf (ds.reverse.getD i '0') * b ^ i)).sum

/-- Left-to-right accumulation `acc * b + digit` over a digit run, in exact
integer arithmetic. -/
def horner (b : Int) (acc : Int) (ds : List Char) : Int :=
  ds.foldl (fun a c => a * b + digitOf c) acc

/-- A separator of the digit run: an underscore or ASCII whitespace. -/
def isSeparator (c : Char) : Bool := c == '_' || isspace c

/-- The characters `c` and `d` are a letter digit `a`-`f` and its upper-case
form `A`-`F`, in either order. -/
def CaseTwin (c d : Char) : Prop :=
  ('a'.toNat ≤ c.toNat ∧ c.toNat ≤ 'f'.toNat ∧ d.toNat + 32 = c.toNat) ∨
  ('A'.toNat ≤ c.toNat ∧ c.toNat ≤ 'F'.toNat ∧ d.toNat = c.toNat + 32)

/-- The text `ys` is obtained from `xs` by inserting separators anywhere and by
replacing letter digits by their other-case form. -/
inductive SepCaseVariant : List Char → List Char → Prop where
  | done : SepCaseVariant [] []
  | keep (c : Char) {xs ys : List Char} : SepCaseVariant xs ys → SepCaseVariant (c :: xs) (c :: ys)
  | recase {c d : Char} {xs ys : List Char} :
      CaseTwin c d → SepCaseVariant xs ys → SepCaseVariant (c :: xs) (d :: ys)
  | insert {s : Char} {xs ys : List Char} :
      isSeparator s = true → SepCaseVariant xs ys → SepCaseVariant xs (s :: ys)

/-- The records located among the indices `1..n`, in ascending index order. -/
def presentRecords (n : Nat) (lookup : Lookup) : List (Int × List Char) :=
  (List.range' 1 n).filterMap lookup


/-- Entry `i - 1` of a coefficient vector as stored by `q[i] += coef[i - 1]`, read
as 0 at `i = 0`. -/
def wrapPrev (coef : List Int) (i : Nat) : Int :=
  if i = 0 then 0 else wrap64 (coef.getD (i - 1) 0)

/-- A coefficient list represents a polynomial modulo `2^64`. -/
def RepresentsMod (coef : List Int) (P : Polynomial ℤ) : Prop :=
  ∀ j, coef.getD j 0 ≡ P.coeff j [ZMOD 18446744073709551616]

/-- The two guarded arithmetic operations of the digit loop, with their operands:
the division `(INT64_MAX - v) / base` of line 39 and the multiply-add
`acc * base + v` of line 40. -/
inductive ArithOp where
  | divide (v base : Int) : ArithOp
  | mulAdd (acc base v : Int) : ArithOp
  deriving DecidableEq, Repr

/-- The operations the digit loop `parseLoop` evaluates, in order: same control
flow, recording each division and each multiply-add it reaches. -/
def parseOps (base : Int) : Int → List Char → List ArithOp
  | _, [] => []
  | acc, c :: p =>
    if c == '_' || isspace c then parseOps base acc p
    else
      match digitValue c with
      | none => []
      | some v =>
        if v ≥ base then []
        else
          .divide v base ::
            (if acc > (INT64_MAX - v).tdiv base then []
             else .mulAdd acc base v :: parseOps base (wrap64 (acc * base + v)) p)

/-- The operations evaluated by a call of `parse_in_base`. -/
def parse_in_base_ops (s : List Char) (base : Int) : List ArithOp :=
  parseOps base 0 (takeSign (s.dropWhile isspace)).2

/-- An operation is safe: a division has a divisor of at least 1, a multiply-add
has an exact result in `[0, INT64_MAX]`. -/
def ArithOp.safe : ArithOp → Bool
  | .divide _ base => decide (1 ≤ base)
  | .mulAdd acc base v => decide (0 ≤ acc * base + v) && decide (acc * base + v ≤ INT64_MAX)

/-- The value returned for an accumulated magnitude `acc`, lines 43-47, with the
sign flag given by the sign text. -/
def applySign (sign : List Char) (acc : Int) : Option Int :=
  if sign = ['-'] then
    if toU64 acc > toU64 INT64_MAX + 1 then none else some (wrap64 (-acc))
  else some acc

/-- Decimal text of an integer: a minus sign for a negative number, then the
base-10 digits of the magnitude, most significant first. -/
def decimalText (x : Int) : String :=
  String.mk ((if x < 0 then ['-'] else []) ++ Nat.toDigits 10 x.natAbs)

/-- The lines of a report: the labels printed by `main` and, between them, the
decimal texts of `k`, the roots, the degree and the coefficients. -/
def reportLines (rep : Report) : List String :=
  ["k", decimalText rep.k, "roots_decimal_first_k"] ++ rep.roots.map decimalText
    ++ ["degree", decimalText rep.degree, "coefficients_high_to_low"]
    ++ rep.coefficients.map decimalText

/-- Sample input: the roots 2^62 and 4 in base 10, with `n = 2` and `k = 2`. -/
def textOverflow : List Char :=
  "\x7b\"n\": 2, \"k\": 2, \"1\": \x7b\"base\": \"10\", \"value\": \"4611686018427387904\"\x7d, \"2\": \x7b\"base\": \"10\", \"value\": \"4\"\x7d\x7d".toList

/-- Sample input: two records, in bases 10 and 16, with `n = 2` and `k = 2`. -/
def textTwoRecords : List Char :=
  "\x7b\"n\": 2, \"k\": 2, \"1\": \x7b\"base\": \"10\", \"value\": \"3\"\x7d, \"2\": \x7b\"base\": \"16\", \"value\": \"-a\"\x7d\x7d".toList

/-- Sample input: one record whose value holds the character `x` in base 10. -/
def textBadRecord : List Char :=
  "\x7b\"n\": 2, \"k\": 1, \"1\": \x7b\"base\": \"10\", \"value\": \"3x\"\x7d\x7d".toList

/-- Sample input: the records `1`, `2`, `3` with the values 3, 5, 9 in base 10. -/
def textThreeRecords : List Char :=
  "\x7b\"n\": 3, \"k\": 3, \"1\": \x7b\"base\": \"10\", \"value\": \"3\"\x7d, \"2\": \x7b\"base\": \"10\", \"value\": \"5\"\x7d, \"3\": \x7b\"base\": \"10\", \"value\": \"9\"\x7d\x7d".toList

/-! ## Facts about machine integers -/

theorem wrap64_of_inI64 {x : Int} (h : inI64 x = true) : wrap64 x = x := by
  simp only [inI64, INT64_MIN, INT64_MAX, Bool.and_eq_true, decide_eq_true_eq] at h
  unfold wrap64
  omega

theorem inI64_wrap64 (x : Int) : inI64 (wrap64 x) = true := by
  simp only [inI64, INT64_MIN, INT64_MAX, Bool.and_eq_true, decide_eq_true_eq]
  unfold wrap64
  omega

theorem getD_set_int (l : List Int) (i j : Nat) (a : Int) :
    (l.set i a).getD j 0 = if i = j ∧ i < l.length then a else l.getD j 0 := by
  simp only [List.getD_eq_getElem?_getD, List.getElem?_set]
  by_cases hij : i = j
  · by_cases hl : i < l.length
    · subst hij
      simp [hl]
    · subst hij
      have : l[i]? = none := List.getElem?_eq_none (by omega)
      simp [hl, this]
  · simp [hij]

/-! ## The inner loop -/

theorem innerSafe_append (ri : Int) (coef : List Int) (js : List Nat) (j : Nat) (q : List Int) :
    innerSafe ri coef (js ++ [j]) q
      = (innerSafe ri coef js q && stepSafe ri coef (js.foldl (innerStep ri coef) q) j) := by
  induction js generalizing q with
  | nil => simp [innerSafe]
  | cons i js ih => simp [innerSafe, ih, Bool.and_assoc]

/-- State of `q` after the first `m` passes of the inner loop, when none of them
overflowed. -/
theorem inner_invariant (ri : Int) (coef : List Int) (m : Nat) (hm : m ≤ coef.length)
    (hs : innerSafe ri coef (List.range m) (List.replicate (coef.length + 1) 0) = true) :
    ((List.range m).foldl (innerStep ri coef) (List.replicate (coef.length + 1) 0)).length
        = coef.length + 1 ∧
    ∀ i, ((List.range m).foldl (innerStep ri coef) (List.replicate (coef.length + 1) 0)).getD i 0
        = if i < m then prevCoef coef i - ri * coef.getD i 0
          else if i = m then prevCoef coef m else 0 := by
  induction m with
  | zero =>
    refine ⟨by simp, fun i => ?_⟩
    simp only [List.range_zero, List.foldl_nil, Nat.not_lt_zero, if_false, prevCoef]
    rw [List.getD_eq_getElem?_getD]
    by_cases hi : i < coef.length + 1
    · rw [List.getElem?_eq_getElem (by simpa using hi)]; simp
    · rw [List.getElem?_eq_none (by simpa using hi)]; simp
  | succ m ih =>
    rw [List.range_succ, innerSafe_append, Bool.and_eq_true] at hs
    obtain ⟨hs1, hs2⟩ := hs
    obtain ⟨hlen, hget⟩ := ih (by omega) hs1
    rw [List.range_succ, List.foldl_append]
    set q := (List.range m).foldl (innerStep ri coef) (List.replicate (coef.length + 1) 0) with hq
    simp only [List.foldl_cons, List.foldl_nil]
    simp only [stepSafe, Bool.and_eq_true] at hs2
    obtain ⟨⟨ha, hp⟩, hsub⟩ := hs2
    have hq1 : q.getD (m + 1) 0 = 0 := by rw [hget]; simp
    have hqm : q.getD m 0 = prevCoef coef m := by rw [hget]; simp
    rw [wrap64_of_inI64 ha, wrap64_of_inI64 hp] at hsub
    have hq1m : (q.set (m + 1) (q.getD (m + 1) 0 + coef.getD m 0)).getD m 0 = prevCoef coef m := by
      rw [getD_set_int, if_neg (by omega)]; exact hqm
    refine ⟨by simp [innerStep, hlen], fun i => ?_⟩
    simp only [innerStep]
    rw [wrap64_of_inI64 ha, wrap64_of_inI64 hp, wrap64_of_inI64 hsub, hq1m]
    rw [getD_set_int, getD_set_int, List.length_set, hlen, hq1, hget]
    by_cases h1 : i = m
    · subst h1; simp; omega
    · by_cases h2 : i = m + 1
      · subst h2; simp [prevCoef]; omega
      · have h3 : ¬ (m = i) := fun h => h1 h.symm
        have h4 : ¬ (m + 1 = i) := fun h => h2 h.symm
        simp only [h3, h4, false_and, if_false, h1, h2]
        by_cases h5 : i < m
        · have : i < m + 1 := by omega
          simp [h5, this]
        · have : ¬ i < m + 1 := by omega
          simp [h5, this]


/-- Without overflow, one outer-loop pass computes `next[i] = coef[i-1] - ri * coef[i]`. -/
theorem mulByRoot_exact (ri : Int) (coef : List Int)
    (hs : innerSafe ri coef (List.range coef.length) (List.replicate (coef.length + 1) 0) = true) :
    (mulByRoot ri coef).length = coef.length + 1 ∧
    ∀ i, (mulByRoot ri coef).getD i 0 = prevCoef coef i - ri * coef.getD i 0 := by
  obtain ⟨hlen, hget⟩ := inner_invariant ri coef coef.length le_rfl hs
  refine ⟨hlen, fun i => ?_⟩
  unfold mulByRoot
  rw [hget]
  have hout : ∀ j, coef.length ≤ j → coef.getD j 0 = 0 := by
    intro j hj
    rw [List.getD_eq_getElem?_getD, List.getElem?_eq_none hj]; rfl
  by_cases h1 : i < coef.length
  · simp [h1]
  · by_cases h2 : i = coef.length
    · subst h2; simp [hout]
    · simp only [h1, h2, if_false]
      have h3 : i ≠ 0 := by omega
      rw [prevCoef, if_neg h3, hout i (by omega), hout (i - 1) (by omega)]
      ring

theorem represents_mulByRoot (ri : Int) (coef : List Int) (P : Polynomial ℤ)
    (hrep : Represents coef P)
    (hs : innerSafe ri coef (List.range coef.length) (List.replicate (coef.length + 1) 0) = true) :
    Represents (mulByRoot ri coef) (P * (Polynomial.X - Polynomial.C ri)) := by
  intro j
  rw [(mulByRoot_exact ri coef hs).2 j]
  cases j with
  | zero =>
    rw [prevCoef, if_pos rfl, hrep 0, Polynomial.mul_coeff_zero]
    simp [mul_comm]
  | succ a =>
    rw [Polynomial.coeff_mul_X_sub_C]
    rw [prevCoef, if_neg (Nat.succ_ne_zero a), Nat.add_sub_cancel, hrep a, hrep (a + 1)]
    ring

theorem fold_spec (rs : List Int) (coef : List Int) (P : Polynomial ℤ)
    (hrep : Represents coef P) (hs : foldSafe rs coef = true) :
    (rs.foldl (fun c ri => mulByRoot ri c) coef).length = coef.length + rs.length ∧
    Represents (rs.foldl (fun c ri => mulByRoot ri c) coef)
      (P * (rs.map (fun r => Polynomial.X - Polynomial.C r)).prod) := by
  induction rs generalizing coef P with
  | nil => simpa using hrep
  | cons r rs ih =>
    simp only [foldSafe, Bool.and_eq_true] at hs
    obtain ⟨h1, h2⟩ := hs
    obtain ⟨hl, hr⟩ := ih (mulByRoot r coef) _ (represents_mulByRoot r coef P hrep h1) h2
    refine ⟨?_, ?_⟩
    · simp only [List.foldl_cons, hl, (mulByRoot_exact r coef h1).1, List.length_cons]; omega
    · simpa [List.foldl_cons, List.map_cons, List.prod_cons, mul_assoc] using hr

/-- C1: when no multiplication or accumulation of the synthesis loop leaves the
signed 64-bit range, the loop started from `[1]` returns `k + 1` entries and entry
`j` is the coefficient of `x^j` in the integer polynomial `(x - r1)...(x - rk)`;
the empty list gives `[1]`, `[0]` gives `[0, 1]` and `[2, 3]` gives `[6, -5, 1]`. -/
theorem synthesize_is_product :
    (∀ rs : List Int, synthSafe rs = true →
      (synthesize rs).length = rs.length + 1 ∧
      ∀ j, (synthesize rs).getD j 0
        = ((rs.map (fun r => (Polynomial.X - Polynomial.C r : Polynomial ℤ))).prod).coeff j) ∧
    synthesize [] = [1] ∧ synthesize [0] = [0, 1] ∧ synthesize [2, 3] = [6, -5, 1] := by
  refine ⟨fun rs hs => ?_, by decide, by decide, by decide⟩
  have hone : Represents [1] (1 : Polynomial ℤ) := by
    intro j
    cases j with
    | zero => simp
    | succ a => simp [Polynomial.coeff_one]
  obtain ⟨hl, hr⟩ := fold_spec rs [1] 1 hone hs
  refine ⟨by simpa [synthesize, Nat.add_comm] using hl, fun j => ?_⟩
  have := hr j
  simpa [synthesize] using this

/-- Witness for C1 at the roots 2, 3. -/
theorem synthesize_is_product_witness :
    synthSafe [2, 3] = true ∧
    (synthesize [2, 3]).length = 3 ∧
    ∀ j, (synthesize [2, 3]).getD j 0
      = (([2, 3].map (fun r => (Polynomial.X - Polynomial.C r : Polynomial ℤ))).prod).coeff j :=
  ⟨by decide, synthesize_is_product.1 [2, 3] (by decide)⟩


/-! ## The synthesis loop has no failure path -/

theorem innerStep_length (ri : Int) (coef q : List Int) (j : Nat) :
    (innerStep ri coef q j).length = q.length := by
  simp [innerStep]

theorem inner_fold_length (ri : Int) (coef : List Int) (js : List Nat) (q : List Int) :
    (js.foldl (innerStep ri coef) q).length = q.length := by
  induction js generalizing q with
  | nil => rfl
  | cons j js ih => rw [List.foldl_cons, ih, innerStep_length]

theorem mulByRoot_length (ri : Int) (coef : List Int) :
    (mulByRoot ri coef).length = coef.length + 1 := by
  simp [mulByRoot, inner_fold_length]

theorem fold_length (rs : List Int) (coef : List Int) :
    (rs.foldl (fun c ri => mulByRoot ri c) coef).length = coef.length + rs.length := by
  induction rs generalizing coef with
  | nil => rfl
  | cons r rs ih => rw [List.foldl_cons, ih, mulByRoot_length, List.length_cons]; omega

theorem synthesize_length (rs : List Int) : (synthesize rs).length = rs.length + 1 := by
  simp [synthesize, fold_length, Nat.add_comm]

/-- The coefficients listed from `coef[deg]` down to `coef[0]` are the reversed vector. -/
theorem high_to_low_eq_reverse (coef : List Int) (deg : Nat) (h : coef.length = deg + 1) :
    (List.range (deg + 1)).reverse.map (fun j => coef.getD j 0) = coef.reverse := by
  rw [List.map_reverse, ← h]
  congr 1
  apply List.ext_getElem
  · simp
  · intro i h1 h2
    simp only [List.getElem_map, List.getElem_range]
    rw [List.getD_eq_getElem?_getD, List.getElem?_eq_getElem (by simpa using h1)]
    rfl

/-- Counterexample to C2: the roots 2^62 and 4 are signed 64-bit values and the
product `4 * (-2^62) = -2^64` leaves the signed 64-bit range, yet the run succeeds
and reports the wrapped coefficients `1, -(2^62 + 4), 0` (the exact constant term
is `2^64`). -/
theorem synthesis_overflow_not_rejected :
    inI64 4611686018427387904 = true ∧ inI64 4 = true ∧
    synthSafe [4611686018427387904, 4] = false ∧
    synthesize [4611686018427387904, 4] = [0, -4611686018427387908, 1] ∧
    run 2 2 (fun i => if i = 1 then some (10, "4611686018427387904".toList)
                      else if i = 2 then some (10, "4".toList) else none)
      = .ok { k := 2, roots := [4611686018427387904, 4], degree := 2,
              coefficients := [1, -4611686018427387908, 0] } :=
  ⟨by decide, by decide, by decide, by decide, by rfl⟩

/-- C2 (amended): the synthesis loop has no overflow check and no failure path.
For every selected root list, also one on which some product or accumulation
leaves the signed 64-bit range, the run succeeds and reports the `k + 1`
coefficients that the loop computed with wrap-around, highest power first. -/
theorem synthesis_overflow_wraps (n k : Int) (lookup : Lookup) (rs : List Int)
    (hn : 1 ≤ n) (hk : 1 ≤ k) (hsel : selectRoots n k lookup = .ok rs) :
    run n k lookup = .ok { k := k, roots := rs, degree := rs.length,
                           coefficients := (synthesize rs).reverse } ∧
    (synthesize rs).length = rs.length + 1 := by
  have hnk : ¬ (k ≤ 0 ∨ n ≤ 0) := by omega
  refine ⟨?_, synthesize_length rs⟩
  simp only [run, hnk, if_false, hsel]
  rw [high_to_low_eq_reverse _ _ (synthesize_length rs)]

/-- Witness for the amended C2 at the roots 2^62 and 4. -/
theorem synthesis_overflow_wraps_witness :
    run 2 2 (fun i => if i = 1 then some (10, "4611686018427387904".toList)
                      else if i = 2 then some (10, "4".toList) else none)
      = .ok { k := 2, roots := [4611686018427387904, 4], degree := [4611686018427387904, 4].length,
              coefficients := (synthesize [4611686018427387904, 4]).reverse } ∧
    (synthesize [4611686018427387904, 4]).length = [4611686018427387904, 4].length + 1 :=
  synthesis_overflow_wraps 2 2 _ [4611686018427387904, 4] (by decide) (by decide) (by rfl)


/-! ## Characters -/

theorem digitValue_bounds {c : Char} {v : Int} (h : digitValue c = some v) : 0 ≤ v ∧ v ≤ 15 := by
  unfold digitValue at h
  simp only [Char.reduceToNat] at h
  split_ifs at h with h1 h2 h3 <;> simp only [Option.some.injEq, reduceCtorEq] at h <;> omega

theorem digitValue_not_separator {c : Char} {v : Int} (h : digitValue c = some v) :
    (c == '_' || isspace c) = false := by
  by_contra hc
  have hc2 : c = '_' ∨ c = ' ' ∨ c = '\t' ∨ c = '\n' ∨ c = '\x0b' ∨ c = '\x0c' ∨ c = '\r' := by
    simp only [isspace, Bool.not_eq_false, Bool.or_eq_true, beq_iff_eq] at hc
    tauto
  have hn : digitValue c = none := by
    rcases hc2 with h | h | h | h | h | h | h <;> subst h <;> decide
  rw [hn] at h
  exact Option.noConfusion h

theorem digitValue_not_space {c : Char} {v : Int} (h : digitValue c = some v) :
    isspace c = false := by
  have := digitValue_not_separator h
  simp only [Bool.or_eq_false_iff] at this
  exact this.2

theorem digitValue_not_sign {c : Char} {v : Int} (h : digitValue c = some v) :
    c ≠ '+' ∧ c ≠ '-' := by
  constructor <;> intro hc <;> subst hc <;> simp [digitValue] at h

theorem digitOf_of_some {c : Char} {v : Int} (h : digitValue c = some v) : digitOf c = v := by
  simp [digitOf, h]

/-! ## The digit loop on a run of valid digits -/

theorem horner_ge (b : Int) (hb : 1 ≤ b) (ds : List Char) (acc : Int) (h0 : 0 ≤ acc)
    (hd : ∀ c ∈ ds, ∃ v, digitValue c = some v ∧ v < b) : acc ≤ horner b acc ds := by
  induction ds generalizing acc with
  | nil => simp [horner]
  | cons c ds ih =>
    obtain ⟨v, hv, _⟩ := hd c (List.mem_cons_self _ _)
    have hv0 := (digitValue_bounds hv).1
    have hstep : acc ≤ acc * b + digitOf c := by
      rw [digitOf_of_some hv]; nlinarith
    have := ih (acc * b + digitOf c) (by omega) (fun c hc => hd c (List.mem_cons_of_mem _ hc))
    simp only [horner, List.foldl_cons] at this ⊢
    omega

/-- The overflow test of line 39 passes exactly when `acc * base + v` fits. -/
theorem overflow_test_iff (acc v base : Int) (hv : 0 ≤ v) (hv2 : v ≤ 15) (hb : 0 < base) :
    acc > (INT64_MAX - v).tdiv base ↔ acc * base + v > INT64_MAX := by
  have hnn : 0 ≤ INT64_MAX - v := by simp only [INT64_MAX]; omega
  rw [Int.tdiv_eq_ediv hnn (le_of_lt hb)]
  constructor
  · intro h
    have := (Int.ediv_lt_iff_lt_mul hb).1 h
    omega
  · intro h
    apply (Int.ediv_lt_iff_lt_mul hb).2
    omega

theorem parseLoop_digits (b : Int) (hb : 1 ≤ b) (ds : List Char) (acc : Int) (h0 : 0 ≤ acc)
    (hd : ∀ c ∈ ds, ∃ v, digitValue c = some v ∧ v < b)
    (hle : horner b acc ds ≤ INT64_MAX) : parseLoop b acc ds = some (horner b acc ds) := by
  induction ds generalizing acc with
  | nil => simp [parseLoop, horner]
  | cons c ds ih =>
    obtain ⟨v, hv, hvb⟩ := hd c (List.mem_cons_self _ _)
    obtain ⟨hv0, hv15⟩ := digitValue_bounds hv
    have hd2 : ∀ c ∈ ds, ∃ v, digitValue c = some v ∧ v < b :=
      fun c hc => hd c (List.mem_cons_of_mem _ hc)
    have hacc0 : 0 ≤ acc * b + v := by nlinarith
    have hh : horner b acc (c :: ds) = horner b (acc * b + v) ds := by
      simp [horner, digitOf_of_some hv]
    rw [hh] at hle ⊢
    have hfit : acc * b + v ≤ INT64_MAX := le_trans (horner_ge b hb ds _ hacc0 hd2) hle
    have hnot : ¬ acc > (INT64_MAX - v).tdiv b := by
      rw [overflow_test_iff acc v b hv0 hv15 (by omega)]; omega
    have hw : wrap64 (acc * b + v) = acc * b + v := by
      apply wrap64_of_inI64
      simp only [inI64, INT64_MIN, INT64_MAX, Bool.and_eq_true, decide_eq_true_eq] at hfit ⊢
      omega
    rw [parseLoop, digitValue_not_separator hv]
    simp only [Bool.false_eq_true, if_false, hv, ge_iff_le, not_le.mpr hvb, hnot, hw]
    exact ih _ hacc0 hd2 hle


/-! ## Positional value -/

theorem positional_append (b : Int) (ds : List Char) (c : Char) :
    positional b (ds ++ [c]) = positional b ds * b + digitOf c := by
  unfold positional
  rw [List.length_append, List.length_singleton, List.range_succ_eq_map, List.reverse_append]
  simp only [List.reverse_cons, List.reverse_nil, List.nil_append, List.singleton_append,
    List.map_cons, List.sum_cons, List.map_map]
  have hfun : ((fun i => digitOf ((c :: ds.reverse).getD i '0') * b ^ i) ∘ Nat.succ)
      = fun i => (digitOf (ds.reverse.getD i '0') * b ^ i) * b := by
    funext i
    simp only [Function.comp, Nat.succ_eq_add_one, List.getD_cons_succ, pow_succ]
    ring
  rw [hfun, List.sum_map_mul_right]
  simp
  ring

theorem horner_append (b acc : Int) (ds : List Char) (c : Char) :
    horner b acc (ds ++ [c]) = horner b acc ds * b + digitOf c := by
  simp [horner, List.foldl_append]

theorem horner_eq_positional (b : Int) (ds : List Char) : horner b 0 ds = positional b ds := by
  induction ds using List.reverseRecOn with
  | nil => simp [horner, positional]
  | append_singleton ds c ih => rw [horner_append, positional_append, ih]

/-- C3: for a base between 2 and 16, a literal made of an optional sign and a
non-empty run of digits valid in the base, whose positional value `m` is at most
`2^63 - 1`, decodes to `m`, or to `-m` after a minus sign; `-ff` in base 16 is
-255 and `1010` in base 2 is 10. -/
theorem parse_in_base_positional :
    (∀ (b : Int) (sign ds : List Char), 2 ≤ b → b ≤ 16 →
      (sign = [] ∨ sign = ['+'] ∨ sign = ['-']) → ds ≠ [] →
      (∀ c ∈ ds, ∃ v, digitValue c = some v ∧ v < b) →
      positional b ds ≤ INT64_MAX →
      parse_in_base (sign ++ ds) b
        = some (if sign = ['-'] then - positional b ds else positional b ds)) ∧
    parse_in_base "-ff".toList 16 = some (-255) ∧
    parse_in_base "1010".toList 2 = some 10 := by
  refine ⟨?_, by decide, by decide⟩
  intro b sign ds hb2 _ hsign hne hd hm
  obtain ⟨c, t, rfl⟩ := List.exists_cons_of_ne_nil hne
  obtain ⟨v, hv, _⟩ := hd c (List.mem_cons_self _ _)
  have hsp := digitValue_not_space hv
  obtain ⟨hplus, hminus⟩ := digitValue_not_sign hv
  have hloop : parseLoop b 0 (c :: t) = some (positional b (c :: t)) := by
    rw [← horner_eq_positional] at hm ⊢
    exact parseLoop_digits b (by omega) _ 0 le_rfl hd hm
  have hpos : 0 ≤ positional b (c :: t) := by
    rw [← horner_eq_positional]
    exact horner_ge b (by omega) _ 0 le_rfl hd
  have htake : takeSign (c :: t) = (false, c :: t) := by
    unfold takeSign
    split
    · rename_i h; exact absurd (List.cons.inj h).1 hplus
    · rename_i h; exact absurd (List.cons.inj h).1 hminus
    · rfl
  rcases hsign with rfl | rfl | rfl
  · have hdrop : ([] ++ c :: t).dropWhile isspace = c :: t := by
      simp [List.dropWhile, hsp]
    simp only [parse_in_base, hdrop, htake, hloop]
    simp
  · have hdrop : (['+'] ++ c :: t).dropWhile isspace = '+' :: c :: t := by
      simp [List.dropWhile, isspace]
    simp only [parse_in_base, hdrop, takeSign, hloop]
    simp
  · have hdrop : (['-'] ++ c :: t).dropWhile isspace = '-' :: c :: t := by
      simp [List.dropWhile, isspace]
    have hu : ¬ toU64 (positional b (c :: t)) > toU64 INT64_MAX + 1 := by
      simp only [toU64, INT64_MAX] at hm ⊢
      omega
    have hw : wrap64 (- positional b (c :: t)) = - positional b (c :: t) := by
      apply wrap64_of_inI64
      simp only [inI64, INT64_MIN, INT64_MAX, Bool.and_eq_true, decide_eq_true_eq] at hm ⊢
      omega
    simp only [parse_in_base, hdrop, takeSign, hloop, hu, hw]
    simp

/-- Witness for C3: the literal `-7f` in base 16. -/
theorem parse_in_base_positional_witness :
    parse_in_base (['-'] ++ ['7', 'f']) 16
      = some (if ['-'] = ['-'] then - positional 16 ['7', 'f'] else positional 16 ['7', 'f']) :=
  parse_in_base_positional.1 16 ['-'] ['7', 'f'] (by decide) (by decide) (by decide) (by decide)
    (by
      intro c hc
      simp only [List.mem_cons, List.mem_singleton, List.not_mem_nil, or_false] at hc
      rcases hc with rfl | rfl
      · exact ⟨7, by decide, by decide⟩
      · exact ⟨15, by decide, by decide⟩)
    (by decide)


/-! ## Boundary and degenerate literals -/

/-- C4: the base-10 rendering of the minimum signed 64-bit integer `-2^63` is
rejected, and so is its rendering in every base from 2 to 16: the magnitude
`2^63` fails the accumulation test against `INT64_MAX` before the sign is applied.
The neighbour `-(2^63 - 1)` decodes in base 10. -/
theorem parse_in_base_rejects_int64_min :
    '-' :: Nat.toDigits 10 9223372036854775808 = "-9223372036854775808".toList ∧
    parse_in_base "-9223372036854775808".toList 10 = none ∧
    (List.range' 2 15).all
      (fun b => parse_in_base ('-' :: Nat.toDigits b 9223372036854775808) (b : Int) == none)
      = true ∧
    parse_in_base "-9223372036854775807".toList 10 = some (-9223372036854775807) := by
  refine ⟨by decide, by decide, by decide, by decide⟩

/-- C5: a literal whose text after the optional sign holds only separators is
accepted with value 0 in every base (`_` and `+ `), while the empty remainder
(the empty literal, `-`, and a literal of whitespace only) is rejected. -/
theorem parse_in_base_separator_only (base : Int) :
    parse_in_base "_".toList base = some 0 ∧
    parse_in_base "+ ".toList base = some 0 ∧
    parse_in_base "".toList base = none ∧
    parse_in_base "-".toList base = none ∧
    parse_in_base " ".toList base = none := by
  refine ⟨rfl, rfl, rfl, rfl, rfl⟩


/-! ## Rejected characters -/

/-- The character `c` stops the digit loop in base `base`: it is not a separator
and either has no digit value or has one that is not below the base. -/
theorem parseLoop_bad_char (base : Int) (p : List Char) (acc : Int) (c : Char) (hc : c ∈ p)
    (hbad : (c ≠ '_' ∧ isspace c = false ∧ digitValue c = none) ∨
            (∃ v, digitValue c = some v ∧ v ≥ base)) :
    parseLoop base acc p = none := by
  induction p generalizing acc with
  | nil => exact absurd hc (List.not_mem_nil c)
  | cons d p ih =>
    rcases List.mem_cons.1 hc with rfl | hmem
    · rcases hbad with ⟨h1, h2, h3⟩ | ⟨v, hv, hge⟩
      · have hsep : (c == '_' || isspace c) = false := by simp [h1, h2]
        rw [parseLoop, hsep]
        simp [h3]
      · rw [parseLoop, digitValue_not_separator hv]
        simp [hv, hge]
    · rw [parseLoop]
      split
      · exact ih acc hmem
      · split
        · rfl
        · split
          · rfl
          · split
            · rfl
            · exact ih _ hmem

/-- C6: a literal that, after its leading whitespace and optional sign, contains
a character that is neither whitespace, underscore nor a hexadecimal digit, or a
digit whose value is not below the base, is rejected in every base; `g` in base
16 and `2` in base 2 are rejected. -/
theorem parse_in_base_rejects_bad_char :
    (∀ (s : List Char) (base : Int) (c : Char),
      c ∈ (takeSign (s.dropWhile isspace)).2 →
      ((c ≠ '_' ∧ isspace c = false ∧ digitValue c = none) ∨
        (∃ v, digitValue c = some v ∧ v ≥ base)) →
      parse_in_base s base = none) ∧
    parse_in_base "g".toList 16 = none ∧ parse_in_base "2".toList 2 = none := by
  refine ⟨?_, by decide, by decide⟩
  intro s base c hc hbad
  have hloop := parseLoop_bad_char base _ 0 c hc hbad
  unfold parse_in_base
  simp only
  split
  · rfl
  · rw [hloop]

/-- Witness for C6: the character `z` inside ` -1z` in base 16. -/
theorem parse_in_base_rejects_bad_char_witness : parse_in_base " -1z".toList 16 = none :=
  parse_in_base_rejects_bad_char.1 " -1z".toList 16 'z' (by decide)
    (Or.inl ⟨by decide, by decide, by decide⟩)


/-! ## The largest literal -/

theorem parseLoop_append (base : Int) (p r : List Char) (acc : Int) :
    parseLoop base acc (p ++ r) = (parseLoop base acc p).bind (fun a => parseLoop base a r) := by
  induction p generalizing acc with
  | nil => simp [parseLoop]
  | cons d p ih =>
    simp only [List.cons_append, parseLoop]
    split
    · exact ih acc
    · split
      · rfl
      · split
        · rfl
        · split
          · rfl
          · exact ih _

/-- A literal that starts with a digit has no leading whitespace and no sign, so
its value is the outcome of the digit loop. -/
theorem parse_in_base_digit_head (base : Int) (d : Char) (t : List Char) (v : Int)
    (hv : digitValue d = some v) : parse_in_base (d :: t) base = parseLoop base 0 (d :: t) := by
  obtain ⟨hplus, hminus⟩ := digitValue_not_sign hv
  have hdrop : (d :: t).dropWhile isspace = d :: t := by
    simp [List.dropWhile, digitValue_not_space hv]
  have htake : takeSign (d :: t) = (false, d :: t) := by
    unfold takeSign
    split
    · rename_i h; exact absurd (List.cons.inj h).1 hplus
    · rename_i h; exact absurd (List.cons.inj h).1 hminus
    · rfl
  simp only [parse_in_base, hdrop, htake]
  cases parseLoop base 0 (d :: t) <;> simp

/-- With the accumulator at `INT64_MAX`, any further digit is rejected. -/
theorem parseLoop_max_digit (base : Int) (hb : 2 ≤ base) (c : Char)
    (hc : (digitValue c).isSome = true) : parseLoop base INT64_MAX [c] = none := by
  obtain ⟨v, hv⟩ := Option.isSome_iff_exists.1 hc
  obtain ⟨hv0, hv15⟩ := digitValue_bounds hv
  rw [parseLoop, digitValue_not_separator hv]
  simp only [Bool.false_eq_true, if_false, hv]
  by_cases hge : v ≥ base
  · simp [hge]
  · have hov : INT64_MAX > (INT64_MAX - v).tdiv base := by
      rw [overflow_test_iff INT64_MAX v base hv0 hv15 (by omega)]
      simp only [INT64_MAX]
      nlinarith
    simp [hge, hov]

theorem parse_in_base_max_append (base : Int) (hb : 2 ≤ base) (L : List Char)
    (hhead : ((L.head?).bind digitValue).isSome = true)
    (hL : parseLoop base 0 L = some INT64_MAX) (c : Char)
    (hc : (digitValue c).isSome = true) : parse_in_base (L ++ [c]) base = none := by
  cases L with
  | nil => simp at hhead
  | cons d t =>
    obtain ⟨v, hv⟩ := Option.isSome_iff_exists.1 hhead
    simp only [List.head?_cons, Option.some_bind] at hv
    rw [List.cons_append, parse_in_base_digit_head base d (t ++ [c]) v hv, ← List.cons_append,
      parseLoop_append, hL]
    exact parseLoop_max_digit base hb c hc

/-- C7: for every base from 2 to 16 the base-`b` literal of `2^63 - 1` decodes to
`2^63 - 1`, and that literal followed by any one further digit character is
rejected. -/
theorem parse_in_base_max_boundary (b : Nat) (h2 : 2 ≤ b) (h16 : b ≤ 16) :
    parse_in_base (Nat.toDigits b 9223372036854775807) (b : Int) = some 9223372036854775807 ∧
    ∀ c : Char, (digitValue c).isSome = true →
      parse_in_base (Nat.toDigits b 9223372036854775807 ++ [c]) (b : Int) = none := by
  interval_cases b <;>
    exact ⟨by decide, fun c hc =>
      parse_in_base_max_append _ (by decide) _ (by decide) (by decide) c hc⟩

/-- Witness for C7 in base 10. -/
theorem parse_in_base_max_boundary_witness :
    parse_in_base (Nat.toDigits 10 9223372036854775807) ((10 : Nat) : Int)
      = some 9223372036854775807 ∧
    ∀ c : Char, (digitValue c).isSome = true →
      parse_in_base (Nat.toDigits 10 9223372036854775807 ++ [c]) ((10 : Nat) : Int) = none :=
  parse_in_base_max_boundary 10 (by decide) (by decide)


/-! ## Separators and letter case -/

theorem parseLoop_skip (base acc : Int) (s : Char) (p : List Char) (hs : isSeparator s = true) :
    parseLoop base acc (s :: p) = parseLoop base acc p := by
  rw [parseLoop]
  simp only [isSeparator] at hs
  simp [hs]

theorem parseLoop_dropWhile (base acc : Int) (p : List Char) :
    parseLoop base acc (p.dropWhile isspace) = parseLoop base acc p := by
  induction p with
  | nil => rfl
  | cons c p ih =>
    by_cases hc : isspace c = true
    · rw [List.dropWhile_cons_of_pos hc, ih, parseLoop_skip base acc c p (by simp [isSeparator, hc])]
    · rw [List.dropWhile_cons_of_neg hc]

theorem caseTwin_digitValue {c d : Char} (h : CaseTwin c d) :
    digitValue c = digitValue d ∧ (digitValue c).isSome = true := by
  unfold CaseTwin at h
  simp only [Char.reduceToNat] at h
  unfold digitValue
  simp only [Char.reduceToNat]
  rcases h with ⟨h1, h2, h3⟩ | ⟨h1, h2, h3⟩
  · have e1 : ¬ (48 ≤ c.toNat ∧ c.toNat ≤ 57) := by omega
    have e2 : (97 ≤ c.toNat ∧ c.toNat ≤ 102) := by omega
    have e3 : ¬ (48 ≤ d.toNat ∧ d.toNat ≤ 57) := by omega
    have e4 : ¬ (97 ≤ d.toNat ∧ d.toNat ≤ 102) := by omega
    have e5 : (65 ≤ d.toNat ∧ d.toNat ≤ 70) := by omega
    simp only [e1, e2, e3, e4, e5, if_true, if_false, Option.isSome_some, and_true,
      Option.some.injEq]
    omega
  · have e1 : ¬ (48 ≤ c.toNat ∧ c.toNat ≤ 57) := by omega
    have e2 : ¬ (97 ≤ c.toNat ∧ c.toNat ≤ 102) := by omega
    have e3 : ¬ (48 ≤ d.toNat ∧ d.toNat ≤ 57) := by omega
    have e4 : (97 ≤ d.toNat ∧ d.toNat ≤ 102) := by omega
    have e5 : (65 ≤ c.toNat ∧ c.toNat ≤ 70) := by omega
    simp only [e1, e2, e3, e4, e5, if_true, if_false, Option.isSome_some, and_true,
      Option.some.injEq]
    omega

theorem parseLoop_variant (base : Int) {xs ys : List Char} (h : SepCaseVariant xs ys) :
    ∀ acc, parseLoop base acc xs = parseLoop base acc ys := by
  induction h with
  | done => intro acc; rfl
  | keep c _ ih =>
    intro acc
    simp only [parseLoop]
    split
    · exact ih acc
    · split
      · rfl
      · split
        · rfl
        · split
          · rfl
          · exact ih _
  | @recase c d xs ys htw _ ih =>
    intro acc
    obtain ⟨heq, hsome⟩ := caseTwin_digitValue htw
    obtain ⟨v, hv⟩ := Option.isSome_iff_exists.1 hsome
    have hvd : digitValue d = some v := heq ▸ hv
    rw [parseLoop, parseLoop, digitValue_not_separator hv, digitValue_not_separator hvd]
    simp only [Bool.false_eq_true, if_false, hv, hvd]
    split
    · rfl
    · split
      · rfl
      · exact ih _
  | insert hs _ ih =>
    intro acc
    rw [parseLoop_skip base acc _ _ hs]
    exact ih acc

theorem variant_has_digit {xs ys : List Char} (h : SepCaseVariant xs ys)
    (hd : ∃ c ∈ xs, (digitValue c).isSome = true) : ∃ c ∈ ys, (digitValue c).isSome = true := by
  induction h with
  | done => exact hd
  | keep c _ ih =>
    obtain ⟨e, he, hv⟩ := hd
    rcases List.mem_cons.1 he with rfl | hmem
    · exact ⟨e, List.mem_cons_self _ _, hv⟩
    · obtain ⟨f, hf, hfv⟩ := ih ⟨e, hmem, hv⟩
      exact ⟨f, List.mem_cons_of_mem _ hf, hfv⟩
  | @recase c d xs ys htw _ ih =>
    obtain ⟨heq, hsome⟩ := caseTwin_digitValue htw
    exact ⟨d, List.mem_cons_self _ _, heq ▸ hsome⟩
  | insert _ _ ih =>
    obtain ⟨f, hf, hfv⟩ := ih hd
    exact ⟨f, List.mem_cons_of_mem _ hf, hfv⟩

theorem dropWhile_ne_nil_of_digit {p : List Char} (hd : ∃ c ∈ p, (digitValue c).isSome = true) :
    p.dropWhile isspace ≠ [] := by
  obtain ⟨c, hc, hv⟩ := hd
  obtain ⟨v, hv⟩ := Option.isSome_iff_exists.1 hv
  intro hnil
  have := (List.dropWhile_eq_nil_iff.1 hnil) c hc
  rw [digitValue_not_space hv] at this
  exact Bool.noConfusion this

theorem takeSign_no_sign {p : List Char} (h : ∀ c ∈ p.head?, c ≠ '+' ∧ c ≠ '-') :
    takeSign p = (false, p) := by
  unfold takeSign
  split
  · exact absurd rfl (h '+' (by simp)).1
  · exact absurd rfl (h '-' (by simp)).2
  · rfl

/-- After a variant of a text that starts with neither whitespace nor a sign has
lost its leading whitespace, it still does not start with a sign. -/
theorem variant_no_sign {xs ys : List Char} (h : SepCaseVariant xs ys) (hne : xs ≠ [])
    (hx : ∀ c ∈ xs.head?, isspace c = false ∧ c ≠ '+' ∧ c ≠ '-') :
    ∀ c ∈ (ys.dropWhile isspace).head?, c ≠ '+' ∧ c ≠ '-' := by
  induction h with
  | done => exact absurd rfl hne
  | keep c _ _ =>
    obtain ⟨h1, h2⟩ := hx c (by simp)
    rw [List.dropWhile_cons_of_neg (by simp [h1])]
    intro e he
    simp only [List.head?_cons, Option.mem_def, Option.some.injEq] at he
    exact he ▸ h2
  | @recase c d xs ys htw _ _ =>
    obtain ⟨heq, hsome⟩ := caseTwin_digitValue htw
    obtain ⟨v, hv⟩ := Option.isSome_iff_exists.1 hsome
    have hvd : digitValue d = some v := heq ▸ hv
    rw [List.dropWhile_cons_of_neg (by simp [digitValue_not_space hvd])]
    intro e he
    simp only [List.head?_cons, Option.mem_def, Option.some.injEq] at he
    exact he ▸ digitValue_not_sign hvd
  | @insert s xs ys hs _ ih =>
    by_cases hsp : isspace s = true
    · rw [List.dropWhile_cons_of_pos hsp]
      exact ih hne hx
    · rw [List.dropWhile_cons_of_neg hsp]
      have hu : s = '_' := by
        simp only [isSeparator, Bool.or_eq_true, beq_iff_eq] at hs
        tauto
      intro e he
      simp only [List.head?_cons, Option.mem_def, Option.some.injEq] at he
      subst he; subst hu
      exact ⟨by decide, by decide⟩

theorem dropWhile_spaces_append (ws p : List Char) (hws : ∀ c ∈ ws, isspace c = true) :
    (ws ++ p).dropWhile isspace = p.dropWhile isspace := by
  induction ws with
  | nil => rfl
  | cons w ws ih =>
    rw [List.cons_append, List.dropWhile_cons_of_pos (hws w (List.mem_cons_self _ _))]
    exact ih (fun c hc => hws c (List.mem_cons_of_mem _ hc))

/-- The outcome of `parse_in_base` is determined by the sign flag and by the
digit loop on the non-empty text after the sign. -/
theorem parse_in_base_congr (s t : List Char) (base : Int)
    (hneg : (takeSign (s.dropWhile isspace)).1 = (takeSign (t.dropWhile isspace)).1)
    (hs : (takeSign (s.dropWhile isspace)).2 ≠ [])
    (ht : (takeSign (t.dropWhile isspace)).2 ≠ [])
    (hloop : parseLoop base 0 (takeSign (s.dropWhile isspace)).2
      = parseLoop base 0 (takeSign (t.dropWhile isspace)).2) :
    parse_in_base s base = parse_in_base t base := by
  obtain ⟨a, p, h1⟩ := List.exists_cons_of_ne_nil hs
  obtain ⟨b, r, h2⟩ := List.exists_cons_of_ne_nil ht
  rw [h1, h2] at hloop
  unfold parse_in_base
  simp only [h1, h2, hneg, hloop]


/-- C8: for a literal made of leading whitespace `ws`, an optional sign `sg` and
a text `rest` holding at least one digit, inserting underscores or whitespace
anywhere in `rest` and replacing letter digits by their other-case form leaves
the outcome of `parse_in_base` unchanged in every base, value or failure alike;
`1_0` and `10` both decode to 10 in base 10. -/
theorem parse_in_base_separator_case_invariant :
    (∀ (base : Int) (ws sg rest rest2 : List Char),
      (∀ c ∈ ws, isspace c = true) →
      (sg = [] ∨ sg = ['+'] ∨ sg = ['-']) →
      (sg = [] → ∀ c ∈ rest.head?, isspace c = false ∧ c ≠ '+' ∧ c ≠ '-') →
      (∃ c ∈ rest, (digitValue c).isSome = true) →
      SepCaseVariant rest rest2 →
      parse_in_base (ws ++ sg ++ rest2) base = parse_in_base (ws ++ sg ++ rest) base) ∧
    parse_in_base "1_0".toList 10 = some 10 ∧ parse_in_base "10".toList 10 = some 10 := by
  refine ⟨?_, by decide, by decide⟩
  intro base ws sg rest rest2 hws hsg hcanon hdig hvar
  have hdig2 := variant_has_digit hvar hdig
  have hne : rest ≠ [] := by
    obtain ⟨c, hc, _⟩ := hdig
    exact List.ne_nil_of_mem hc
  have hne2 : rest2 ≠ [] := by
    obtain ⟨c, hc, _⟩ := hdig2
    exact List.ne_nil_of_mem hc
  have hloop := parseLoop_variant base hvar 0
  rcases hsg with rfl | rfl | rfl
  · have hx := hcanon rfl
    have hd1 : (ws ++ [] ++ rest).dropWhile isspace = rest := by
      rw [List.append_nil, dropWhile_spaces_append ws rest hws]
      obtain ⟨a, p, rfl⟩ := List.exists_cons_of_ne_nil hne
      exact List.dropWhile_cons_of_neg (by simp [(hx a (by simp)).1])
    have hd2 : (ws ++ [] ++ rest2).dropWhile isspace = rest2.dropWhile isspace := by
      rw [List.append_nil, dropWhile_spaces_append ws rest2 hws]
    have ht1 : takeSign rest = (false, rest) :=
      takeSign_no_sign (fun c hc => (hx c hc).2)
    have ht2 : takeSign (rest2.dropWhile isspace) = (false, rest2.dropWhile isspace) :=
      takeSign_no_sign (variant_no_sign hvar hne hx)
    apply parse_in_base_congr
    · rw [hd1, hd2, ht1, ht2]
    · rw [hd2, ht2]; exact dropWhile_ne_nil_of_digit hdig2
    · rw [hd1, ht1]; exact hne
    · rw [hd1, hd2, ht1, ht2, parseLoop_dropWhile]; exact hloop.symm
  · have hd : ∀ p : List Char, (ws ++ ['+'] ++ p).dropWhile isspace = '+' :: p := by
      intro p
      rw [List.append_assoc, dropWhile_spaces_append ws _ hws]
      exact List.dropWhile_cons_of_neg (by decide)
    apply parse_in_base_congr
    · rw [hd, hd]; rfl
    · rw [hd]; exact hne2
    · rw [hd]; exact hne
    · rw [hd, hd]; exact hloop.symm
  · have hd : ∀ p : List Char, (ws ++ ['-'] ++ p).dropWhile isspace = '-' :: p := by
      intro p
      rw [List.append_assoc, dropWhile_spaces_append ws _ hws]
      exact List.dropWhile_cons_of_neg (by decide)
    apply parse_in_base_congr
    · rw [hd, hd]; rfl
    · rw [hd]; exact hne2
    · rw [hd]; exact hne
    · rw [hd, hd]; exact hloop.symm

/-- Witness for C8: ` -_a F` against ` -Af` in base 16. -/
theorem parse_in_base_separator_case_invariant_witness :
    parse_in_base ([' '] ++ ['-'] ++ ['_', 'a', ' ', 'F']) 16
      = parse_in_base ([' '] ++ ['-'] ++ ['A', 'f']) 16 :=
  parse_in_base_separator_case_invariant.1 16 [' '] ['-'] ['A', 'f'] ['_', 'a', ' ', 'F']
    (by decide) (by decide) (by decide) ⟨'A', by decide, by decide⟩
    (.insert (by decide) (.recase (Or.inr (by decide))
      (.insert (by decide) (.recase (Or.inl (by decide)) .done))))


/-! ## Root selection -/

/-- When every located record among the indices `i + 1 .. i + m` decodes, the scan
appends their decoded values, in index order, to the values found so far. -/
theorem scanRoots_all_decode (lookup : Lookup) (m : Nat) :
    ∀ (i : Nat) (acc : List Int),
      (∀ r ∈ (List.range' (i + 1) m).filterMap lookup, (parse_in_base r.2 r.1).isSome = true) →
      ∃ D : List Int, scanRoots lookup i m acc = .ok (acc ++ D) ∧
        D.map some = ((List.range' (i + 1) m).filterMap lookup).map
          (fun r => parse_in_base r.2 r.1) := by
  induction m with
  | zero =>
    intro i acc _
    exact ⟨[], by simp [scanRoots], by simp⟩
  | succ m ih =>
    intro i acc hdec
    rw [List.range'_succ] at hdec ⊢
    cases hl : lookup (i + 1) with
    | none =>
      rw [List.filterMap_cons_none hl] at hdec ⊢
      obtain ⟨D, hD, hmap⟩ := ih (i + 1) acc hdec
      exact ⟨D, by simp only [scanRoots, hl]; exact hD, hmap⟩
    | some r =>
      obtain ⟨base, val⟩ := r
      rw [List.filterMap_cons_some hl] at hdec ⊢
      have hsome := hdec (base, val) (List.mem_cons_self _ _)
      obtain ⟨x, hx⟩ := Option.isSome_iff_exists.1 hsome
      simp only at hx
      obtain ⟨D, hD, hmap⟩ := ih (i + 1) (acc ++ [x])
        (fun r hr => hdec r (List.mem_cons_of_mem _ hr))
      refine ⟨x :: D, ?_, ?_⟩
      · simp only [scanRoots, hl, hx]
        rw [hD, List.append_assoc, List.singleton_append]
      · simp only [List.map_cons, hx, hmap]

/-- C9: with `n >= 1`, `k >= 1`, at least `k` records located among the indices
`1..n` and every located record decoding, the selection succeeds and the selected
roots are the decoded values of the `k` lowest-index located records in ascending
index order; with `n = 3`, `k = 2` and index 2 absent the roots of the indices 1
and 3 are returned in that order. -/
theorem selectRoots_first_k :
    (∀ (n k : Nat) (lookup : Lookup), 1 ≤ n → 1 ≤ k →
      k ≤ (presentRecords n lookup).length →
      (∀ r ∈ presentRecords n lookup, (parse_in_base r.2 r.1).isSome = true) →
      ∃ roots : List Int, selectRoots n k lookup = .ok roots ∧ roots.length = k ∧
        roots.map some
          = ((presentRecords n lookup).take k).map (fun r => parse_in_base r.2 r.1)) ∧
    (∀ (lookup : Lookup) (b1 b3 : Int) (v1 v3 : List Char) (x1 x3 : Int),
      lookup 1 = some (b1, v1) → lookup 2 = none → lookup 3 = some (b3, v3) →
      parse_in_base v1 b1 = some x1 → parse_in_base v3 b3 = some x3 →
      selectRoots 3 2 lookup = .ok [x1, x3]) := by
  constructor
  · intro n k lookup _ _ hcount hdec
    obtain ⟨D, hD, hmap⟩ := scanRoots_all_decode lookup n 0 [] hdec
    have hlen : D.length = (presentRecords n lookup).length := by
      have := congrArg List.length hmap
      simpa [presentRecords] using this
    refine ⟨D.take k, ?_, ?_, ?_⟩
    · have hnot : ¬ ((D.length : Int) < (k : Int)) := by omega
      simp only [selectRoots, Int.toNat_ofNat, hD, List.nil_append, hnot, if_false]
    · rw [List.length_take]; omega
    · rw [List.map_take, List.map_take, hmap]; rfl
  · intro lookup b1 b3 v1 v3 x1 x3 h1 h2 h3 p1 p3
    simp [selectRoots, scanRoots, h1, h2, h3, p1, p3]

/-- Witness for C9: three indices, the second absent, two roots wanted. -/
theorem selectRoots_first_k_witness :
    ∃ roots : List Int,
      selectRoots (3 : Nat) (2 : Nat)
        (fun i => if i = 1 then some (10, "7".toList)
                  else if i = 3 then some (16, "-a".toList) else none) = .ok roots ∧
      roots.length = 2 ∧
      roots.map some
        = ((presentRecords 3 (fun i => if i = 1 then some (10, "7".toList)
              else if i = 3 then some (16, "-a".toList) else none)).take 2).map
            (fun r => parse_in_base r.2 r.1) :=
  selectRoots_first_k.1 3 2 _ (by decide) (by decide) (by decide) (by decide)


/-- C10: with `n = 3` and `k = 2`, the records 1 and 2 decode to the roots 1 and
2, yet a malformed record at index 3 ends the run with the decode failure for
index 3; the same input with a well-formed third record succeeds with the roots
1, 2 and the coefficients 1, -3, 2. The scan decodes every located record of the
indices `1..n` before the first `k` are selected. -/
theorem run_decodes_every_record :
    run 3 2 (fun i => if i = 1 then some (10, "1".toList)
                      else if i = 2 then some (10, "2".toList)
                      else if i = 3 then some (10, "x".toList) else none)
      = .error (.parseFailed 3) ∧
    run 3 2 (fun i => if i = 1 then some (10, "1".toList)
                      else if i = 2 then some (10, "2".toList)
                      else if i = 3 then some (10, "3".toList) else none)
      = .ok { k := 2, roots := [1, 2], degree := 2, coefficients := [1, -3, 2] } :=
  ⟨by rfl, by rfl⟩


/-! ## Failures of the selection -/

/-- The scan stops at the lowest index whose located record does not decode. -/
theorem scanRoots_first_failure (lookup : Lookup) (i : Nat) (b : Int) (v : List Char)
    (hl : lookup i = some (b, v)) (hp : parse_in_base v b = none) (m : Nat) :
    ∀ (i0 : Nat) (acc : List Int), i0 < i → i ≤ i0 + m →
      (∀ r ∈ (List.range' (i0 + 1) (i - 1 - i0)).filterMap lookup,
        (parse_in_base r.2 r.1).isSome = true) →
      scanRoots lookup i0 m acc = .error (.parseFailed i) := by
  induction m with
  | zero => intro i0 acc h1 h2 _; omega
  | succ m ih =>
    intro i0 acc h1 h2 hdec
    by_cases hi : i = i0 + 1
    · subst hi
      simp only [scanRoots, hl, hp]
    · have hsplit : i - 1 - i0 = (i - 1 - (i0 + 1)) + 1 := by omega
      rw [hsplit, List.range'_succ] at hdec
      cases hlk : lookup (i0 + 1) with
      | none =>
        rw [List.filterMap_cons_none hlk] at hdec
        simp only [scanRoots, hlk]
        exact ih (i0 + 1) acc (by omega) (by omega) hdec
      | some r =>
        obtain ⟨base, val⟩ := r
        rw [List.filterMap_cons_some hlk] at hdec
        obtain ⟨x, hx⟩ := Option.isSome_iff_exists.1 (hdec (base, val) (List.mem_cons_self _ _))
        simp only at hx
        simp only [scanRoots, hlk, hx]
        exact ih (i0 + 1) (acc ++ [x]) (by omega) (by omega)
          (fun r hr => hdec r (List.mem_cons_of_mem _ hr))

/-- C11: with `n >= 1` and `k >= 1`, when fewer than `k` records are located among
the indices `1..n` and all of them decode, the selection and the run fail with the
insufficient-roots error carrying the number found and `k`; and when the located
record of index `i` does not decode, every located record below `i` decodes and
fewer than `k` of them exist, the run fails with the decode error for index `i`. -/
theorem selection_failures :
    (∀ (n k : Nat) (lookup : Lookup), 1 ≤ n → 1 ≤ k →
      (presentRecords n lookup).length < k →
      (∀ r ∈ presentRecords n lookup, (parse_in_base r.2 r.1).isSome = true) →
      selectRoots n k lookup = .error (.notEnough (presentRecords n lookup).length k) ∧
      run n k lookup = .error (.notEnough (presentRecords n lookup).length k)) ∧
    (∀ (n k : Nat) (lookup : Lookup) (i : Nat) (b : Int) (v : List Char), 1 ≤ n → 1 ≤ k →
      1 ≤ i → i ≤ n → lookup i = some (b, v) → parse_in_base v b = none →
      (∀ r ∈ presentRecords (i - 1) lookup, (parse_in_base r.2 r.1).isSome = true) →
      (presentRecords (i - 1) lookup).length < k →
      selectRoots n k lookup = .error (.parseFailed i) ∧
      run n k lookup = .error (.parseFailed i)) := by
  constructor
  · intro n k lookup hn hk hcount hdec
    obtain ⟨D, hD, hmap⟩ := scanRoots_all_decode lookup n 0 [] hdec
    have hlen : D.length = (presentRecords n lookup).length := by
      have := congrArg List.length hmap
      simpa [presentRecords] using this
    have hlt : ((D.length : Int) < (k : Int)) := by omega
    have hsel : selectRoots n k lookup
        = .error (.notEnough (presentRecords n lookup).length k) := by
      rw [← hlen]
      simp only [selectRoots, Int.toNat_ofNat, hD, List.nil_append, hlt, if_true]
    have hnk : ¬ ((k : Int) ≤ 0 ∨ (n : Int) ≤ 0) := by omega
    exact ⟨hsel, by simp only [run, hnk, if_false, hsel]⟩
  · intro n k lookup i b v hn hk hi1 hin hl hp hdec _
    have hscan : scanRoots lookup 0 n [] = .error (.parseFailed i) :=
      scanRoots_first_failure lookup i b v hl hp n 0 [] (by omega) (by omega)
        (by simpa [presentRecords] using hdec)
    have hsel : selectRoots n k lookup = .error (.parseFailed i) := by
      simp only [selectRoots, Int.toNat_ofNat, hscan]
    have hnk : ¬ ((k : Int) ≤ 0 ∨ (n : Int) ≤ 0) := by omega
    exact ⟨hsel, by simp only [run, hnk, if_false, hsel]⟩

/-- Witness for C11: one record located where two are wanted, and a malformed
record at index 2 after one decoded record. -/
theorem selection_failures_witness :
    (selectRoots (3 : Nat) (2 : Nat) (fun i => if i = 2 then some (10, "5".toList) else none)
        = .error (.notEnough
            (presentRecords 3 (fun i => if i = 2 then some (10, "5".toList) else none)).length
            (2 : Nat)) ∧
      run (3 : Nat) (2 : Nat) (fun i => if i = 2 then some (10, "5".toList) else none)
        = .error (.notEnough
            (presentRecords 3 (fun i => if i = 2 then some (10, "5".toList) else none)).length
            (2 : Nat))) ∧
    (selectRoots (3 : Nat) (2 : Nat)
        (fun i => if i = 1 then some (10, "5".toList)
                  else if i = 2 then some (10, "x".toList) else none)
        = .error (.parseFailed 2) ∧
      run (3 : Nat) (2 : Nat)
        (fun i => if i = 1 then some (10, "5".toList)
                  else if i = 2 then some (10, "x".toList) else none)
        = .error (.parseFailed 2)) :=
  ⟨selection_failures.1 3 2 _ (by decide) (by decide) (by decide) (by decide),
   selection_failures.2 3 2 _ 2 10 "x".toList (by decide) (by decide) (by decide) (by decide)
     (by rfl) (by decide) (by decide) (by decide)⟩


/-! ## The synthesis loop in wrapping arithmetic -/

theorem getD_replicate_zero (n i : Nat) : (List.replicate n (0 : Int)).getD i 0 = 0 := by
  rw [List.getD_eq_getElem?_getD]
  by_cases hi : i < n
  · rw [List.getElem?_eq_getElem (by simpa using hi)]; simp
  · rw [List.getElem?_eq_none (by simpa using hi)]; rfl

/-- State of `q` after the first `m` passes of the inner loop, whatever the operands. -/
theorem inner_invariant_wrap (ri : Int) (coef : List Int) (m : Nat) (hm : m ≤ coef.length) :
    ∀ i, ((List.range m).foldl (innerStep ri coef) (List.replicate (coef.length + 1) 0)).getD i 0
        = if i < m then wrap64 (wrapPrev coef i - wrap64 (ri * coef.getD i 0))
          else if i = m then wrapPrev coef m else 0 := by
  induction m with
  | zero =>
    intro i
    simp only [List.range_zero, List.foldl_nil, Nat.not_lt_zero, if_false, wrapPrev]
    rw [getD_replicate_zero]
    by_cases hi : i = 0 <;> simp [hi]
  | succ m ih =>
    have hget := ih (by omega)
    have hlen := inner_fold_length ri coef (List.range m) (List.replicate (coef.length + 1) 0)
    rw [List.length_replicate] at hlen
    rw [List.range_succ, List.foldl_append]
    set q := (List.range m).foldl (innerStep ri coef) (List.replicate (coef.length + 1) 0) with hq
    simp only [List.foldl_cons, List.foldl_nil]
    have hq1 : q.getD (m + 1) 0 = 0 := by rw [hget]; simp
    have hqm : q.getD m 0 = wrapPrev coef m := by rw [hget]; simp
    have hq1m : (q.set (m + 1) (wrap64 (q.getD (m + 1) 0 + coef.getD m 0))).getD m 0
        = wrapPrev coef m := by
      rw [getD_set_int, if_neg (by omega)]; exact hqm
    have hnew : wrap64 (q.getD (m + 1) 0 + coef.getD m 0) = wrapPrev coef (m + 1) := by
      rw [hq1, zero_add, wrapPrev, if_neg (Nat.succ_ne_zero m), Nat.add_sub_cancel]
    intro i
    simp only [innerStep]
    rw [hq1m, hnew, getD_set_int, getD_set_int, List.length_set, hlen, hget]
    by_cases h1 : i = m
    · subst h1; simp; omega
    · by_cases h2 : i = m + 1
      · subst h2; simp; omega
      · have h3 : ¬ (m = i) := fun h => h1 h.symm
        have h4 : ¬ (m + 1 = i) := fun h => h2 h.symm
        simp only [h3, h4, false_and, if_false, h1, h2]
        by_cases h5 : i < m
        · have : i < m + 1 := by omega
          simp [h5, this]
        · have : ¬ i < m + 1 := by omega
          simp [h5, this]

/-- One outer-loop pass in closed form. -/
theorem mulByRoot_wrap (ri : Int) (coef : List Int) (i : Nat) :
    (mulByRoot ri coef).getD i 0
      = if i < coef.length then wrap64 (wrapPrev coef i - wrap64 (ri * coef.getD i 0))
        else if i = coef.length then wrapPrev coef coef.length else 0 :=
  inner_invariant_wrap ri coef coef.length le_rfl i

theorem wrap64_modEq (x : Int) : wrap64 x ≡ x [ZMOD 18446744073709551616] := by
  unfold Int.ModEq wrap64
  omega

theorem eq_of_modEq_of_inI64 {a b : Int} (h : a ≡ b [ZMOD 18446744073709551616])
    (ha : inI64 a = true) (hb : inI64 b = true) : a = b := by
  simp only [inI64, INT64_MIN, INT64_MAX, Bool.and_eq_true, decide_eq_true_eq] at ha hb
  unfold Int.ModEq at h
  omega

theorem getD_eq_zero_of_le (coef : List Int) (j : Nat) (hj : coef.length ≤ j) :
    coef.getD j 0 = 0 := by
  rw [List.getD_eq_getElem?_getD, List.getElem?_eq_none hj]; rfl

theorem wrapPrev_modEq (coef : List Int) (i : Nat) :
    wrapPrev coef i ≡ prevCoef coef i [ZMOD 18446744073709551616] := by
  unfold wrapPrev prevCoef
  by_cases hi : i = 0
  · simp [hi]
  · simp only [hi, if_false]; exact wrap64_modEq _

/-- Every entry of the new vector is congruent to `coef[i-1] - ri * coef[i]`. -/
theorem mulByRoot_modEq (ri : Int) (coef : List Int) (i : Nat) :
    (mulByRoot ri coef).getD i 0
      ≡ prevCoef coef i - ri * coef.getD i 0 [ZMOD 18446744073709551616] := by
  rw [mulByRoot_wrap]
  by_cases h1 : i < coef.length
  · simp only [h1, if_true]
    exact (wrap64_modEq _).trans ((wrapPrev_modEq coef i).sub (wrap64_modEq _))
  · by_cases h2 : i = coef.length
    · subst h2
      simp only [lt_irrefl, if_false, if_true, getD_eq_zero_of_le coef _ le_rfl, mul_zero,
        sub_zero]
      exact wrapPrev_modEq coef _
    · have h3 : i ≠ 0 := by omega
      simp only [h1, h2, if_false, prevCoef, h3, getD_eq_zero_of_le coef i (by omega),
        getD_eq_zero_of_le coef (i - 1) (by omega), mul_zero, sub_zero]
      exact Int.ModEq.refl 0

theorem mulByRoot_inI64 (ri : Int) (coef : List Int) (i : Nat) :
    inI64 ((mulByRoot ri coef).getD i 0) = true := by
  rw [mulByRoot_wrap]
  by_cases h1 : i < coef.length
  · simp only [h1, if_true]; exact inI64_wrap64 _
  · by_cases h2 : i = coef.length
    · simp only [h1, h2, lt_irrefl, if_false, if_true, wrapPrev]
      by_cases h3 : coef.length = 0
      · simp only [h3, if_true]; decide
      · simp only [h3, if_false]; exact inI64_wrap64 _
    · simp only [h1, h2, if_false]; decide


theorem representsMod_mulByRoot (ri : Int) (coef : List Int) (P : Polynomial ℤ)
    (hrep : RepresentsMod coef P) :
    RepresentsMod (mulByRoot ri coef) (P * (Polynomial.X - Polynomial.C ri)) := by
  intro j
  refine (mulByRoot_modEq ri coef j).trans ?_
  cases j with
  | zero =>
    rw [prevCoef, if_pos rfl, Polynomial.mul_coeff_zero]
    have h := (hrep 0).mul_left ri
    have e : P.coeff 0 * (Polynomial.X - Polynomial.C ri).coeff 0 = 0 - ri * P.coeff 0 := by
      simp [mul_comm]
    rw [e]
    exact (Int.ModEq.refl 0).sub h
  | succ a =>
    rw [Polynomial.coeff_mul_X_sub_C, prevCoef, if_neg (Nat.succ_ne_zero a), Nat.add_sub_cancel,
      mul_comm (P.coeff (a + 1)) ri]
    exact (hrep a).sub ((hrep (a + 1)).mul_left ri)

theorem fold_modEq (rs : List Int) (coef : List Int) (P : Polynomial ℤ)
    (hrep : RepresentsMod coef P) :
    RepresentsMod (rs.foldl (fun c ri => mulByRoot ri c) coef)
      (P * (rs.map (fun r => Polynomial.X - Polynomial.C r)).prod) := by
  induction rs generalizing coef P with
  | nil => simpa using hrep
  | cons r rs ih =>
    have := ih (mulByRoot r coef) _ (representsMod_mulByRoot r coef P hrep)
    simpa [List.foldl_cons, List.map_cons, List.prod_cons, mul_assoc] using this

theorem synthesize_modEq (rs : List Int) :
    RepresentsMod (synthesize rs)
      ((rs.map (fun r => (Polynomial.X - Polynomial.C r : Polynomial ℤ))).prod) := by
  have hone : RepresentsMod [1] (1 : Polynomial ℤ) := by
    intro j
    cases j with
    | zero => simp
    | succ a => simp [Polynomial.coeff_one]
  have := fold_modEq rs [1] 1 hone
  simpa [synthesize] using this

theorem synthesize_snoc (rs : List Int) (r : Int) :
    synthesize (rs ++ [r]) = mulByRoot r (synthesize rs) := by
  simp [synthesize, List.foldl_append]

theorem synthesize_inI64 (rs : List Int) (j : Nat) : inI64 ((synthesize rs).getD j 0) = true := by
  induction rs using List.reverseRecOn with
  | nil =>
    cases j with
    | zero => decide
    | succ a => simp [synthesize]; decide
  | append_singleton rs r _ =>
    rw [synthesize_snoc]
    exact mulByRoot_inI64 r _ j

/-- C18: with wrap-around arithmetic and no condition on the roots, the synthesis
loop returns `k + 1` entries, each congruent modulo `2^64` to the coefficient of
the exact polynomial `(x - r1)...(x - rk)`; when every exact coefficient lies in
the signed 64-bit range the output is the exact coefficient vector, as for the
roots `2^62, -2`, where the product `(-2) * (-2^62)` wraps. -/
theorem synthesize_wrapping_congruent :
    (∀ rs : List Int,
      (synthesize rs).length = rs.length + 1 ∧
      (∀ j, (synthesize rs).getD j 0
        ≡ ((rs.map (fun r => (Polynomial.X - Polynomial.C r : Polynomial ℤ))).prod).coeff j
          [ZMOD 18446744073709551616]) ∧
      ((∀ j, inI64 (((rs.map (fun r => (Polynomial.X - Polynomial.C r : Polynomial ℤ))).prod).coeff
          j) = true) →
        ∀ j, (synthesize rs).getD j 0
          = ((rs.map (fun r => (Polynomial.X - Polynomial.C r : Polynomial ℤ))).prod).coeff j)) ∧
    synthSafe [4611686018427387904, -2] = false ∧
    synthesize [4611686018427387904, -2] = [-9223372036854775808, -4611686018427387902, 1] := by
  refine ⟨fun rs => ⟨synthesize_length rs, synthesize_modEq rs, fun hex j => ?_⟩,
    by decide, by decide⟩
  exact eq_of_modEq_of_inI64 (synthesize_modEq rs j) (synthesize_inI64 rs j) (hex j)

/-- Witness for C18 at the single root 3. -/
theorem synthesize_wrapping_congruent_witness :
    ∀ j, (synthesize [3]).getD j 0
      = (([3].map (fun r => (Polynomial.X - Polynomial.C r : Polynomial ℤ))).prod).coeff j :=
  (synthesize_wrapping_congruent.1 [3]).2.2 (by
    intro j
    simp only [List.map_cons, List.map_nil, List.prod_cons, List.prod_nil, mul_one,
      Polynomial.coeff_sub, Polynomial.coeff_X, Polynomial.coeff_C]
    split_ifs <;> decide)


/-! ## Monic invariant, order of folding, roots -/

theorem synthesize_leading (rs : List Int) : (synthesize rs).getD rs.length 0 = 1 := by
  induction rs using List.reverseRecOn with
  | nil => rfl
  | append_singleton rs r ih =>
    have hlen := synthesize_length rs
    rw [synthesize_snoc, List.length_append, List.length_singleton, mulByRoot_wrap, hlen]
    simp only [lt_irrefl, if_false, if_true, wrapPrev, Nat.succ_ne_zero, Nat.add_sub_cancel, ih]
    decide

/-- C12: the synthesis loop always completes; for `k` roots the vector has `k + 1`
entries and the entry of `x^k` is 1, and this holds after each folding step: the
state after `i` roots has `i + 1` entries with leading entry 1, and folding one
more root makes the vector one entry longer. -/
theorem synthesize_monic :
    (∀ rs : List Int, (synthesize rs).length = rs.length + 1 ∧
      (synthesize rs).getD rs.length 0 = 1) ∧
    (∀ (rs : List Int) (i : Nat), i ≤ rs.length →
      (synthesize (rs.take i)).length = i + 1 ∧ (synthesize (rs.take i)).getD i 0 = 1) ∧
    (∀ (rs : List Int) (r : Int), synthesize (rs ++ [r]) = mulByRoot r (synthesize rs) ∧
      (synthesize (rs ++ [r])).length = (synthesize rs).length + 1) := by
  refine ⟨fun rs => ⟨synthesize_length rs, synthesize_leading rs⟩, fun rs i hi => ?_,
    fun rs r => ⟨synthesize_snoc rs r, ?_⟩⟩
  · have hl : (rs.take i).length = i := by rw [List.length_take]; omega
    have h1 := synthesize_length (rs.take i)
    have h2 := synthesize_leading (rs.take i)
    rw [hl] at h1 h2
    exact ⟨h1, h2⟩
  · rw [synthesize_snoc, mulByRoot_length]

/-- Witness for C12: the state after two of the three roots 5, -7, 11. -/
theorem synthesize_monic_witness :
    (synthesize ([5, -7, 11].take 2)).length = 2 + 1 ∧
    (synthesize ([5, -7, 11].take 2)).getD 2 0 = 1 :=
  synthesize_monic.2.1 [5, -7, 11] 2 (by decide)

theorem list_eq_of_getD (l1 l2 : List Int) (hlen : l1.length = l2.length)
    (h : ∀ j, l1.getD j 0 = l2.getD j 0) : l1 = l2 := by
  apply List.ext_getElem hlen
  intro i h1 h2
  have := h i
  rw [List.getD_eq_getElem?_getD, List.getD_eq_getElem?_getD, List.getElem?_eq_getElem h1,
    List.getElem?_eq_getElem h2] at this
  exact this

/-- C13: folding a permutation of the roots gives the same coefficient vector;
the synthesis loop has no failure exit, so this holds for every pair of orders. -/
theorem synthesize_perm (rs rs2 : List Int) (h : rs.Perm rs2) :
    synthesize rs = synthesize rs2 := by
  apply list_eq_of_getD
  · rw [synthesize_length, synthesize_length, h.length_eq]
  · intro j
    have hprod : (rs.map (fun r => (Polynomial.X - Polynomial.C r : Polynomial ℤ))).prod
        = (rs2.map (fun r => (Polynomial.X - Polynomial.C r : Polynomial ℤ))).prod :=
      (h.map _).prod_eq
    have h1 := synthesize_modEq rs j
    have h2 := synthesize_modEq rs2 j
    rw [hprod] at h1
    exact eq_of_modEq_of_inI64 (h1.trans h2.symm) (synthesize_inI64 rs j)
      (synthesize_inI64 rs2 j)

/-- Witness for C13: the roots 2, 3, -4 and the order -4, 2, 3. -/
theorem synthesize_perm_witness : synthesize [2, 3, -4] = synthesize [-4, 2, 3] :=
  synthesize_perm [2, 3, -4] [-4, 2, 3] (by decide)

theorem list_sum_range (f : Nat → Int) (n : Nat) :
    ((List.range n).map f).sum = ∑ i in Finset.range n, f i := by
  induction n with
  | zero => simp
  | succ n ih =>
    rw [List.range_succ, List.map_append, List.sum_append, ih, Finset.sum_range_succ]
    simp

/-- C16: when the synthesis loop runs without overflow, every root `r` of the list
is a zero of the produced polynomial, `sum over j of c[j] * r^j = 0` over the
integers, and the polynomial is monic of degree `k`: `k + 1` entries, the last 1. -/
theorem synthesize_roots_are_zeros (rs : List Int) (hs : synthSafe rs = true) (r : Int)
    (hr : r ∈ rs) :
    ((List.range (rs.length + 1)).map (fun j => (synthesize rs).getD j 0 * r ^ j)).sum = 0 ∧
    (synthesize rs).length = rs.length + 1 ∧ (synthesize rs).getD rs.length 0 = 1 := by
  refine ⟨?_, synthesize_length rs, synthesize_leading rs⟩
  have hone : Represents [1] (1 : Polynomial ℤ) := by
    intro j
    cases j with
    | zero => simp
    | succ a => simp [Polynomial.coeff_one]
  have hrep := (fold_spec rs [1] 1 hone hs).2
  rw [one_mul] at hrep
  set P := (rs.map (fun r => (Polynomial.X - Polynomial.C r : Polynomial ℤ))).prod with hP
  have hcoef : ∀ j, (synthesize rs).getD j 0 = P.coeff j := hrep
  have hdeg : P.natDegree < rs.length + 1 := by
    apply Nat.lt_succ_of_le
    rw [Polynomial.natDegree_le_iff_coeff_eq_zero]
    intro N hN
    rw [← hcoef N]
    exact getD_eq_zero_of_le _ _ (by rw [synthesize_length]; omega)
  have heval : P.eval r = 0 := by
    rw [hP, Polynomial.eval_list_prod]
    apply List.prod_eq_zero
    rw [List.mem_map]
    refine ⟨Polynomial.X - Polynomial.C r, List.mem_map.2 ⟨r, hr, rfl⟩, by simp⟩
  rw [list_sum_range]
  calc ∑ j in Finset.range (rs.length + 1), (synthesize rs).getD j 0 * r ^ j
      = ∑ j in Finset.range (rs.length + 1), P.coeff j * r ^ j :=
        Finset.sum_congr rfl (fun j _ => by rw [hcoef j])
    _ = P.eval r := (Polynomial.eval_eq_sum_range' hdeg r).symm
    _ = 0 := heval

/-- Witness for C16: the root 3 of the list 2, 3. -/
theorem synthesize_roots_are_zeros_witness :
    ((List.range ([2, 3].length + 1)).map (fun j => (synthesize [2, 3]).getD j 0 * 3 ^ j)).sum = 0 ∧
    (synthesize [2, 3]).length = [2, 3].length + 1 ∧
    (synthesize [2, 3]).getD [2, 3].length 0 = 1 :=
  synthesize_roots_are_zeros [2, 3] (by decide) 3 (by decide)


/-! ## Exactness of the overflow test -/

/-- On a run of valid digits the digit loop succeeds exactly when the exact
accumulation fits in `INT64_MAX`. -/
theorem parseLoop_digits_overflow (b : Int) (hb : 1 ≤ b) (ds : List Char) (acc : Int)
    (h0 : 0 ≤ acc) (hmax : acc ≤ INT64_MAX)
    (hd : ∀ c ∈ ds, ∃ v, digitValue c = some v ∧ v < b)
    (hgt : INT64_MAX < horner b acc ds) : parseLoop b acc ds = none := by
  induction ds generalizing acc with
  | nil =>
    simp only [horner, List.foldl_nil] at hgt
    omega
  | cons c ds ih =>
    obtain ⟨v, hv, hvb⟩ := hd c (List.mem_cons_self _ _)
    obtain ⟨hv0, hv15⟩ := digitValue_bounds hv
    have hd2 : ∀ c ∈ ds, ∃ v, digitValue c = some v ∧ v < b :=
      fun c hc => hd c (List.mem_cons_of_mem _ hc)
    have hh : horner b acc (c :: ds) = horner b (acc * b + v) ds := by
      simp [horner, digitOf_of_some hv]
    rw [hh] at hgt
    rw [parseLoop, digitValue_not_separator hv]
    simp only [Bool.false_eq_true, if_false, hv, ge_iff_le, not_le.mpr hvb]
    by_cases htest : acc > (INT64_MAX - v).tdiv b
    · simp [htest]
    · have hfit : ¬ acc * b + v > INT64_MAX := by
        rw [← overflow_test_iff acc v b hv0 hv15 (by omega)]; exact htest
      have hacc0 : 0 ≤ acc * b + v := by nlinarith
      have hw : wrap64 (acc * b + v) = acc * b + v := by
        apply wrap64_of_inI64
        simp only [inI64, INT64_MIN, INT64_MAX, Bool.and_eq_true, decide_eq_true_eq] at hfit ⊢
        omega
      simp only [htest, if_false, hw]
      exact ih _ hacc0 (by omega) hd2 hgt

/-- A literal made of an optional sign and a text that starts with a digit: the
outcome is the digit loop on the text followed by the application of the sign. -/
theorem parse_in_base_signed (b : Int) (sign : List Char) (c : Char) (t : List Char) (v : Int)
    (hsign : sign = [] ∨ sign = ['+'] ∨ sign = ['-']) (hv : digitValue c = some v) :
    parse_in_base (sign ++ c :: t) b = (parseLoop b 0 (c :: t)).bind (applySign sign) := by
  rcases hsign with rfl | rfl | rfl
  · rw [List.nil_append, parse_in_base_digit_head b c t v hv]
    cases parseLoop b 0 (c :: t) <;> simp [applySign]
  · have hdrop : (['+'] ++ c :: t).dropWhile isspace = '+' :: c :: t := by
      simp [List.dropWhile, isspace]
    simp only [parse_in_base, hdrop, takeSign]
    cases parseLoop b 0 (c :: t) <;> simp [applySign]
  · have hdrop : (['-'] ++ c :: t).dropWhile isspace = '-' :: c :: t := by
      simp [List.dropWhile, isspace]
    simp only [parse_in_base, hdrop, takeSign]
    cases parseLoop b 0 (c :: t) <;> simp [applySign]

/-- C19: for a base from 2 to 16, an optional sign and a non-empty run of digits
valid in the base with positional value `m`, `parse_in_base` succeeds exactly when
`m <= 2^63 - 1`; every successful result lies in `[-(2^63 - 1), 2^63 - 1]`, the
magnitude test of the negative branch never rejects, and the test before the
multiply-add rejects exactly when `acc * base + v` would exceed `INT64_MAX`. -/
theorem parse_in_base_succeeds_iff (b : Int) (sign ds : List Char) (hb2 : 2 ≤ b) (hb16 : b ≤ 16)
    (hsign : sign = [] ∨ sign = ['+'] ∨ sign = ['-']) (hne : ds ≠ [])
    (hd : ∀ c ∈ ds, ∃ v, digitValue c = some v ∧ v < b) :
    ((parse_in_base (sign ++ ds) b).isSome = true ↔ positional b ds ≤ INT64_MAX) ∧
    (∀ x, parse_in_base (sign ++ ds) b = some x → -INT64_MAX ≤ x ∧ x ≤ INT64_MAX) ∧
    (∀ acc, parseLoop b 0 ds = some acc → ¬ toU64 acc > toU64 INT64_MAX + 1) ∧
    (∀ acc v : Int, 0 ≤ v → v < b →
      (acc > (INT64_MAX - v).tdiv b ↔ acc * b + v > INT64_MAX)) := by
  obtain ⟨c, t, rfl⟩ := List.exists_cons_of_ne_nil hne
  obtain ⟨v, hv, _⟩ := hd c (List.mem_cons_self _ _)
  have hparse := parse_in_base_signed b sign c t v hsign hv
  have hpos : 0 ≤ positional b (c :: t) := by
    rw [← horner_eq_positional]
    exact horner_ge b (by omega) _ 0 le_rfl hd
  have happly : ∀ acc, 0 ≤ acc → acc ≤ INT64_MAX →
      ∃ x, applySign sign acc = some x ∧ -INT64_MAX ≤ x ∧ x ≤ INT64_MAX := by
    intro acc h0 h1
    unfold applySign
    by_cases hs : sign = ['-']
    · have hu : ¬ toU64 acc > toU64 INT64_MAX + 1 := by
        simp only [toU64, INT64_MAX] at h1 ⊢
        omega
      have hw : wrap64 (-acc) = -acc := by
        apply wrap64_of_inI64
        simp only [inI64, INT64_MIN, INT64_MAX, Bool.and_eq_true, decide_eq_true_eq] at h1 ⊢
        omega
      refine ⟨-acc, by simp [hs, hu, hw], ?_, ?_⟩ <;> simp only [INT64_MAX] at h1 ⊢ <;> omega
    · exact ⟨acc, by simp [hs], by simp only [INT64_MAX] at h1 ⊢; omega, h1⟩
  have hloop : parseLoop b 0 (c :: t)
      = if positional b (c :: t) ≤ INT64_MAX then some (positional b (c :: t)) else none := by
    by_cases hm : positional b (c :: t) ≤ INT64_MAX
    · rw [if_pos hm]
      rw [← horner_eq_positional] at hm ⊢
      exact parseLoop_digits b (by omega) _ 0 le_rfl hd hm
    · rw [if_neg hm]
      rw [← horner_eq_positional] at hm
      exact parseLoop_digits_overflow b (by omega) _ 0 le_rfl (by decide) hd (not_le.mp hm)
  refine ⟨?_, ?_, ?_, ?_⟩
  · rw [hparse, hloop]
    by_cases hm : positional b (c :: t) ≤ INT64_MAX
    · obtain ⟨x, hx, _⟩ := happly _ hpos hm
      simp [hm, hx]
    · simp [hm]
  · intro x hx
    rw [hparse, hloop] at hx
    by_cases hm : positional b (c :: t) ≤ INT64_MAX
    · obtain ⟨y, hy, hy1, hy2⟩ := happly _ hpos hm
      simp only [hm, if_true, Option.some_bind, hy, Option.some.injEq] at hx
      rw [← hx]; exact ⟨hy1, hy2⟩
    · simp [hm] at hx
  · intro acc hacc
    rw [hloop] at hacc
    by_cases hm : positional b (c :: t) ≤ INT64_MAX
    · simp only [hm, if_true, Option.some.injEq] at hacc
      subst hacc
      simp only [toU64, INT64_MAX] at hm hpos ⊢
      omega
    · simp [hm] at hacc
  · intro acc w hw0 hwb
    exact overflow_test_iff acc w b hw0 (by omega) (by omega)

/-- Witness for C19: the literal `-7f` in base 16. -/
theorem parse_in_base_succeeds_iff_witness :
    ((parse_in_base (['-'] ++ ['7', 'f']) 16).isSome = true
      ↔ positional 16 ['7', 'f'] ≤ INT64_MAX) ∧
    (∀ x, parse_in_base (['-'] ++ ['7', 'f']) 16 = some x → -INT64_MAX ≤ x ∧ x ≤ INT64_MAX) ∧
    (∀ acc, parseLoop 16 0 ['7', 'f'] = some acc → ¬ toU64 acc > toU64 INT64_MAX + 1) ∧
    (∀ acc v : Int, 0 ≤ v → v < 16 →
      (acc > (INT64_MAX - v).tdiv 16 ↔ acc * 16 + v > INT64_MAX)) :=
  parse_in_base_succeeds_iff 16 ['-'] ['7', 'f'] (by decide) (by decide) (by decide) (by decide)
    (by
      intro c hc
      simp only [List.mem_cons, List.mem_singleton, List.not_mem_nil, or_false] at hc
      rcases hc with rfl | rfl
      · exact ⟨7, by decide, by decide⟩
      · exact ⟨15, by decide, by decide⟩)


/-! ## Safety of the arithmetic of the digit loop -/

/-- With the accumulator in `[0, INT64_MAX]`, every operation the digit loop
reaches is safe. -/
theorem parseOps_safe (base : Int) (p : List Char) :
    ∀ acc : Int, 0 ≤ acc → acc ≤ INT64_MAX → ∀ op ∈ parseOps base acc p, op.safe = true := by
  induction p with
  | nil => intro acc _ _ op hop; simp [parseOps] at hop
  | cons c p ih =>
    intro acc h0 h1 op hop
    rw [parseOps] at hop
    split at hop
    · exact ih acc h0 h1 op hop
    · split at hop
      · simp at hop
      · rename_i v hv
        obtain ⟨hv0, hv15⟩ := digitValue_bounds hv
        split at hop
        · simp at hop
        · rename_i hvb
          have hbase : 1 ≤ base := by omega
          rcases List.mem_cons.1 hop with rfl | hop
          · simp [ArithOp.safe, hbase]
          · split at hop
            · simp at hop
            · rename_i htest
              have hfit : ¬ acc * base + v > INT64_MAX := by
                rw [← overflow_test_iff acc v base hv0 hv15 (by omega)]; exact htest
              have hacc0 : 0 ≤ acc * base + v := by nlinarith
              have hw : wrap64 (acc * base + v) = acc * base + v := by
                apply wrap64_of_inI64
                simp only [inI64, INT64_MIN, INT64_MAX, Bool.and_eq_true,
                  decide_eq_true_eq] at hfit ⊢
                omega
              rcases List.mem_cons.1 hop with rfl | hop
              · simp only [ArithOp.safe, Bool.and_eq_true, decide_eq_true_eq]
                exact ⟨hacc0, not_lt.mp hfit⟩
              · rw [hw] at hop
                exact ih _ hacc0 (not_lt.mp hfit) op hop

/-- The instrumented loop follows the digit loop: it stops without a multiply-add
exactly where the digit loop fails or ends, and the accumulator of the digit loop
is the result of the recorded multiply-adds. -/
theorem parseOps_mulAdd_count (base : Int) (p : List Char) :
    ∀ acc : Int, (parseLoop base acc p).isSome = true →
      ((parseOps base acc p).filter (fun op => op matches .mulAdd ..)).length
        = (p.filter (fun c => (digitValue c).isSome)).length := by
  induction p with
  | nil => intro acc _; rfl
  | cons c p ih =>
    intro acc hsome
    rw [parseLoop] at hsome
    rw [parseOps]
    split at hsome
    · rename_i hsep
      have hnd : digitValue c = none := by
        cases hdv : digitValue c with
        | none => rfl
        | some v => rw [digitValue_not_separator hdv] at hsep; exact absurd hsep (by decide)
      simp only [hsep, if_true, List.filter_cons, hnd, Option.isSome_none, Bool.false_eq_true,
        if_false]
      exact ih acc hsome
    · rename_i hsep
      split at hsome
      · simp at hsome
      · rename_i v hv
        split at hsome
        · simp at hsome
        · rename_i hvb
          split at hsome
          · simp at hsome
          · rename_i htest
            have := ih _ hsome
            simp only [hsep, if_false, hv, hvb, htest, List.filter_cons, Option.isSome_some,
              if_true, List.length_cons, Bool.false_eq_true, this]

/-- C20: `parse_in_base` is a total function of the literal and the base, and for
every literal and every integer base each division `(INT64_MAX - v) / base` it
reaches has `base >= 1` and each multiply-add `acc * base + v` it reaches has an
exact result in `[0, 2^63 - 1]`; for a base `<= 0` a literal with a digit after
its optional sign is rejected. -/
theorem parse_in_base_arithmetic_safe (s : List Char) (base : Int) :
    (∀ op ∈ parse_in_base_ops s base, op.safe = true) ∧
    (base ≤ 0 → (∃ c ∈ (takeSign (s.dropWhile isspace)).2, (digitValue c).isSome = true) →
      parse_in_base s base = none ∧ parse_in_base_ops s base = []) := by
  refine ⟨parseOps_safe base _ 0 le_rfl (by decide), fun hb ⟨c, hc, hdig⟩ => ?_⟩
  obtain ⟨v, hv⟩ := Option.isSome_iff_exists.1 hdig
  have hv0 := (digitValue_bounds hv).1
  have hloop := parseLoop_bad_char base _ 0 c hc (Or.inr ⟨v, hv, by omega⟩)
  constructor
  · unfold parse_in_base
    simp only
    split
    · rfl
    · rw [hloop]
  · unfold parse_in_base_ops
    generalize (takeSign (s.dropWhile isspace)).2 = p
    generalize (0 : Int) = acc
    induction p with
    | nil => rfl
    | cons d p ih =>
      rw [parseOps]
      split
      · exact ih
      · split
        · rfl
        · rename_i w hw
          have hw0 := (digitValue_bounds hw).1
          have : w ≥ base := by omega
          simp [this]

/-- Witness for C20: the literal `-12` in base 0. -/
theorem parse_in_base_arithmetic_safe_witness :
    parse_in_base "-12".toList 0 = none ∧ parse_in_base_ops "-12".toList 0 = [] :=
  (parse_in_base_arithmetic_safe "-12".toList 0).2 (by decide) ⟨'1', by decide, by decide⟩


/-! ## The program on the input text -/

/-- The line printed for an integer by `%d` and `%lld` is its decimal text. -/
theorem decimalLine_eq (x : Int) : decimalLine x = decimalText x := by
  cases x with
  | ofNat n =>
    have h : ¬ ((Int.ofNat n) < 0) := by simp
    simp only [decimalLine, decimalText, h, if_false, List.nil_append, Int.natAbs_ofNat]
    rfl
  | negSucc n =>
    have h : (Int.negSucc n) < 0 := Int.negSucc_lt_zero n
    simp only [decimalLine, decimalText, h, if_true]
    rfl

theorem map_decimalLine (xs : List Int) : xs.map decimalLine = xs.map decimalText :=
  List.map_congr_left (fun x _ => decimalLine_eq x)

/-- The program is the run on the extracted `n`, `k` and records: a successful
run prints its report and exits with 0, every failure exits with 1 after printing
nothing. -/
theorem mainProgram_eq (json : List Char) :
    mainProgram json =
      match extract_int_key json "n".toList, extract_int_key json "k".toList with
      | some n, some k =>
        match run n k (lookupOf json) with
        | .ok rep => (0, reportLines rep)
        | .error _ => (1, [])
      | _, _ => (1, []) := by
  unfold mainProgram
  cases hn : extract_int_key json "n".toList with
  | none => rfl
  | some n =>
    cases hk : extract_int_key json "k".toList with
    | none => rfl
    | some k =>
      simp only [run, selectRoots]
      by_cases hnk : k ≤ 0 ∨ n ≤ 0
      · simp only [hnk, if_true]
      · simp only [hnk, if_false]
        cases hscan : scanRoots (lookupOf json) 0 n.toNat [] with
        | error e => rfl
        | ok roots =>
          simp only
          by_cases hlt : (roots.length : Int) < k
          · simp only [hlt, if_true]
          · simp only [hlt, if_false, reportLines, List.nil_append, List.map_map,
              decimalLine_eq, map_decimalLine]
            rfl

theorem selectRoots_length (n k : Int) (lookup : Lookup) (r : List Int) (hk : 0 ≤ k)
    (h : selectRoots n k lookup = .ok r) : (r.length : Int) = k := by
  unfold selectRoots at h
  cases hscan : scanRoots lookup 0 n.toNat [] with
  | error e => rw [hscan] at h; simp at h
  | ok roots =>
    rw [hscan] at h
    simp only at h
    split at h
    · simp at h
    · rename_i hlt
      simp only [Except.ok.injEq] at h
      rw [← h, List.length_take]
      omega

/-- The report of a successful run, in terms of the selected roots. -/
theorem run_ok_report (n k : Int) (lookup : Lookup) (rep : Report)
    (h : run n k lookup = .ok rep) :
    1 ≤ n ∧ 1 ≤ k ∧ ∃ roots, selectRoots n k lookup = .ok roots ∧ (roots.length : Int) = k ∧
      rep = { k := k, roots := roots, degree := roots.length,
              coefficients := (synthesize roots).reverse } := by
  unfold run at h
  split at h
  · simp at h
  · rename_i hnk
    cases hsel : selectRoots n k lookup with
    | error e => rw [hsel] at h; simp at h
    | ok r =>
      rw [hsel] at h
      simp only [Except.ok.injEq] at h
      rw [high_to_low_eq_reverse _ _ (synthesize_length r)] at h
      exact ⟨by omega, by omega, r, rfl, selectRoots_length n k lookup r (by omega) hsel, h.symm⟩

/-- Once `k` roots are selected the run succeeds, whatever the synthesis loop
meets: there is no exit between the selection and the report. -/
theorem run_of_selected (n k : Int) (lookup : Lookup) (roots : List Int) (hn : 1 ≤ n)
    (hk : 1 ≤ k) (hsel : selectRoots n k lookup = .ok roots) :
    run n k lookup = .ok { k := k, roots := roots, degree := roots.length,
                           coefficients := (synthesize roots).reverse } := by
  have hnk : ¬ (k ≤ 0 ∨ n ≤ 0) := by omega
  simp only [run, hnk, if_false, hsel]
  rw [high_to_low_eq_reverse _ _ (synthesize_length roots)]

/-- Counterexample to C14: the input with the roots 2^62 and 4 overflows in the
synthesis loop, yet the program ends with exit status 0 and prints the whole
report, with the wrapped coefficients 1, -(2^62 + 4), 0: overflow is not among
the failures that give a nonzero status and an empty standard output. -/
theorem mainProgram_overflow_exits_zero :
    selectRoots 2 2 (lookupOf textOverflow) = .ok [4611686018427387904, 4] ∧
    synthSafe [4611686018427387904, 4] = false ∧
    mainProgram textOverflow
      = (0, ["k", "2", "roots_decimal_first_k", "4611686018427387904", "4", "degree", "2",
             "coefficients_high_to_low", "1", "-4611686018427387908", "0"]) :=
  ⟨by rfl, by decide, by rfl⟩

/-- C14 (amended): for every input text the program ends with exit status 0 or 1;
a run that ends with a nonzero status has printed nothing to standard output, and
this is the case when `n` or `k` is missing, when `k <= 0` or `n <= 0`, and when
the selection fails (a located record that does not decode, or fewer than `k`
roots); the status is 0 only when the whole report of a successful run was
printed. Overflow in the synthesis loop is not a failure: whenever `n >= 1`,
`k >= 1` and `k` roots are selected, the status is 0 and the whole report is
printed, with the coefficients the loop computed with wrap-around. -/
theorem mainProgram_no_partial_output (json : List Char) :
    ((mainProgram json).1 = 0 ∨ (mainProgram json).1 = 1) ∧
    ((mainProgram json).1 ≠ 0 → (mainProgram json).2 = []) ∧
    ((mainProgram json).1 = 0 → ∃ n k rep,
      extract_int_key json "n".toList = some n ∧ extract_int_key json "k".toList = some k ∧
      run n k (lookupOf json) = .ok rep ∧ (mainProgram json).2 = reportLines rep) ∧
    ((extract_int_key json "n".toList = none ∨ extract_int_key json "k".toList = none) →
      mainProgram json = (1, [])) ∧
    (∀ n k, extract_int_key json "n".toList = some n → extract_int_key json "k".toList = some k →
      (k ≤ 0 ∨ n ≤ 0) → mainProgram json = (1, [])) ∧
    (∀ n k e, extract_int_key json "n".toList = some n →
      extract_int_key json "k".toList = some k →
      selectRoots n k (lookupOf json) = .error e → mainProgram json = (1, [])) ∧
    (∀ n k roots, extract_int_key json "n".toList = some n →
      extract_int_key json "k".toList = some k → 1 ≤ n → 1 ≤ k →
      selectRoots n k (lookupOf json) = .ok roots →
      mainProgram json =
        (0, ["k", decimalText k, "roots_decimal_first_k"] ++ roots.map decimalText
              ++ ["degree", decimalText k, "coefficients_high_to_low"]
              ++ (synthesize roots).reverse.map decimalText)) := by
  have hm := mainProgram_eq json
  cases hn : extract_int_key json "n".toList with
  | none =>
    rw [hn] at hm
    simp only at hm
    rw [hm]
    simp
  | some n =>
    cases hk : extract_int_key json "k".toList with
    | none =>
      rw [hn, hk] at hm
      simp only at hm
      rw [hm]
      simp
    | some k =>
      rw [hn, hk] at hm
      simp only at hm
      cases hrun : run n k (lookupOf json) with
      | error e =>
        rw [hrun] at hm
        simp only at hm
        rw [hm]
        refine ⟨Or.inr rfl, fun _ => rfl, fun h => absurd h (by decide), fun _ => rfl,
          fun _ _ _ _ _ => rfl, fun _ _ _ _ _ _ => rfl, ?_⟩
        intro n2 k2 roots h1 h2 hn1 hk1 hsel
        simp only [Option.some.injEq] at h1 h2
        subst h1; subst h2
        rw [run_of_selected n k _ roots hn1 hk1 hsel] at hrun
        simp at hrun
      | ok rep =>
        rw [hrun] at hm
        simp only at hm
        rw [hm]
        refine ⟨Or.inl rfl, fun h => absurd rfl h, fun _ => ⟨n, k, rep, rfl, rfl, hrun, rfl⟩,
          fun h => by simp at h, ?_, ?_, ?_⟩
        · intro n2 k2 h1 h2 hbad
          simp only [Option.some.injEq] at h1 h2
          subst h1; subst h2
          simp [run, hbad] at hrun
        · intro n2 k2 e h1 h2 hsel
          simp only [Option.some.injEq] at h1 h2
          subst h1; subst h2
          simp only [run, hsel] at hrun
          split at hrun <;> simp at hrun
        · intro n2 k2 roots h1 h2 hn1 hk1 hsel
          simp only [Option.some.injEq] at h1 h2
          subst h1; subst h2
          rw [run_of_selected n k _ roots hn1 hk1 hsel] at hrun
          simp only [Except.ok.injEq] at hrun
          have hlen := selectRoots_length n k _ roots (by omega) hsel
          rw [← hrun]
          simp only [reportLines, hlen]

/-- Witness for C14: a run that stops at a record that does not decode, and the
run on the roots 2^62 and 4, which overflows and prints its whole report. -/
theorem mainProgram_no_partial_output_witness :
    mainProgram textBadRecord = (1, []) ∧
    mainProgram textOverflow =
      (0, ["k", decimalText 2, "roots_decimal_first_k"]
            ++ [4611686018427387904, 4].map decimalText
            ++ ["degree", decimalText 2, "coefficients_high_to_low"]
            ++ (synthesize [4611686018427387904, 4]).reverse.map decimalText) :=
  ⟨(mainProgram_no_partial_output textBadRecord).2.2.2.2.2.1 2 1 (.parseFailed 1)
      (by rfl) (by rfl) (by rfl),
   (mainProgram_no_partial_output textOverflow).2.2.2.2.2.2 2 2 [4611686018427387904, 4]
      (by rfl) (by rfl) (by decide) (by decide) (by rfl)⟩

/-- C15: every run that ends with exit status 0 has read `n >= 1` and `k >= 1`,
has selected `k` roots, and has printed, in this order, the label `k` and the
decimal text of `k`, the label `roots_decimal_first_k` and the decimal texts of
the `k` selected roots in selection order, the label `degree` and the decimal
text of the degree, equal to `k`, the label `coefficients_high_to_low` and the
decimal texts of the `k + 1` coefficients from the one of `x^k` down to the
constant term: the ascending coefficient vector reversed. For the records 3 in
base 10 and `-a` in base 16 the lines are `k, 2, roots_decimal_first_k, 3, -10,
degree, 2, coefficients_high_to_low, 1, 7, -30`. -/
theorem mainProgram_report :
    (∀ json : List Char, (mainProgram json).1 = 0 →
      ∃ (n k : Int) (roots : List Int),
        extract_int_key json "n".toList = some n ∧ extract_int_key json "k".toList = some k ∧
        1 ≤ n ∧ 1 ≤ k ∧ selectRoots n k (lookupOf json) = .ok roots ∧
        (roots.length : Int) = k ∧ ((synthesize roots).reverse).length = roots.length + 1 ∧
        (mainProgram json).2 =
          ["k", decimalText k, "roots_decimal_first_k"] ++ roots.map decimalText
            ++ ["degree", decimalText k, "coefficients_high_to_low"]
            ++ (synthesize roots).reverse.map decimalText) ∧
    decimalText 0 = "0" ∧ decimalText 1234567890 = "1234567890" ∧
    decimalText (-9223372036854775808) = "-9223372036854775808" ∧
    mainProgram textTwoRecords
      = (0, ["k", "2", "roots_decimal_first_k", "3", "-10", "degree", "2",
             "coefficients_high_to_low", "1", "7", "-30"]) := by
  refine ⟨?_, by decide, by decide, by decide, by rfl⟩
  intro json h
  have hm := mainProgram_eq json
  cases hn : extract_int_key json "n".toList with
  | none =>
    rw [hn] at hm
    simp only at hm
    rw [hm] at h
    exact absurd h (by decide)
  | some n =>
    cases hk : extract_int_key json "k".toList with
    | none =>
      rw [hn, hk] at hm
      simp only at hm
      rw [hm] at h
      exact absurd h (by decide)
    | some k =>
      rw [hn, hk] at hm
      simp only at hm
      cases hrun : run n k (lookupOf json) with
      | error e =>
        rw [hrun] at hm
        simp only at hm
        rw [hm] at h
        exact absurd h (by decide)
      | ok rep =>
        rw [hrun] at hm
        simp only at hm
        obtain ⟨hn1, hk1, roots, hsel, hlen, hrep⟩ := run_ok_report n k _ rep hrun
        refine ⟨n, k, roots, rfl, rfl, hn1, hk1, hsel, hlen, ?_, ?_⟩
        · rw [List.length_reverse, synthesize_length]
        · rw [hm, hrep]
          simp only [reportLines, hlen]

/-- Witness for C15: two records in bases 10 and 16, two roots wanted. -/
theorem mainProgram_report_witness :
    ∃ (n k : Int) (roots : List Int),
      extract_int_key textTwoRecords "n".toList = some n ∧
      extract_int_key textTwoRecords "k".toList = some k ∧
      1 ≤ n ∧ 1 ≤ k ∧ selectRoots n k (lookupOf textTwoRecords) = .ok roots ∧
      (roots.length : Int) = k ∧ ((synthesize roots).reverse).length = roots.length + 1 ∧
      (mainProgram textTwoRecords).2 =
        ["k", decimalText k, "roots_decimal_first_k"] ++ roots.map decimalText
          ++ ["degree", decimalText k, "coefficients_high_to_low"]
          ++ (synthesize roots).reverse.map decimalText :=
  mainProgram_report.1 textTwoRecords (by rfl)

/-- C17: in the text with the records `1`, `2`, `3` of values 3, 5, 9 in base 10,
`extract_block` for the index `3` stops at the quoted value `"3"` of record 1 and
returns the base and value of the following block, record 2; for the index `5`,
which no record has, it stops at the quoted value `"5"` of record 2 and returns
record 3 instead of signalling absence. The run for `n = 3`, `k = 3` therefore
reports the roots 3, 5, 5. An index whose digits occur nowhere in quotes is
absent, and the index `2` is found at its key. -/
theorem extract_block_matches_quoted_values :
    extract_block textThreeRecords "3".toList 2048 = some (10, "5".toList) ∧
    extract_block textThreeRecords "5".toList 2048 = some (10, "9".toList) ∧
    extract_block textThreeRecords "2".toList 2048 = some (10, "5".toList) ∧
    extract_block textThreeRecords "7".toList 2048 = none ∧
    mainProgram textThreeRecords
      = (0, ["k", "3", "roots_decimal_first_k", "3", "5", "5", "degree", "3",
             "coefficients_high_to_low", "1", "-13", "55", "-75"]) :=
  ⟨by decide, by decide, by decide, by decide, by rfl⟩

end Polynomial64
